import Mathlib

/-!
Shallow embedding of the relation-inference and ontology-aggregation engine
of the `book_connections` repository (files `relation_extractor.py`,
`ontology_builder.py`, `entity_extractor.py`), together with theorems that
settle the frozen claims about it.

Conventions of the embedding:
* Python strings are `List Char` (Python indexes strings by code point, which
  matches `List Char` positions exactly); string constants are written via
  `String.data`.
* Python's `str.lower()` / `str.upper()` / `str.isupper()` are embedded for the
  alphabet actually used by the program (ASCII and Russian Cyrillic including Ё).
* Python `dict`s are insertion-ordered association lists; `dict.get(k, d)` on a
  key that every producer in this code base writes is embedded as a total field,
  and as an `Option` field with `getD` where a producer may omit it.
* Python code that can raise (`xs[0]` on an empty list, here reachable through
  `name.split()[0]`) is embedded in the `Except String` monad; all other code is
  pure and total.
* `max(0, a - b)` on ints coincides with truncated `Nat` subtraction `a - b`,
  which is used for lower window bounds.
-/

set_option maxRecDepth 8192

namespace BookConn

abbrev Chars := List Char

/-- Shorthand for string literals as `List Char` (Python code points). -/
def w (s : String) : Chars := s.data

/-- Python `str.lower()` restricted to the alphabet used by the program:
ASCII letters and Russian Cyrillic (`А`–`Я` at U+0410–U+042F plus `Ё` U+0401). -/
def pyLowerChar (c : Char) : Char :=
  if 'A' ≤ c ∧ c ≤ 'Z' then Char.ofNat (c.toNat + 32)
  else if 'А' ≤ c ∧ c ≤ 'Я' then Char.ofNat (c.toNat + 32)
  else if c = 'Ё' then 'ё'
  else c

/-- Python `str.upper()` for the same alphabet. -/
def pyUpperChar (c : Char) : Char :=
  if 'a' ≤ c ∧ c ≤ 'z' then Char.ofNat (c.toNat - 32)
  else if 'а' ≤ c ∧ c ≤ 'я' then Char.ofNat (c.toNat - 32)
  else if c = 'ё' then 'Ё'
  else c

/-- Python `str.isupper()` on a single character, for the same alphabet. -/
def pyIsUpper (c : Char) : Bool :=
  ('A' ≤ c ∧ c ≤ 'Z') ∨ ('А' ≤ c ∧ c ≤ 'Я') ∨ c = 'Ё'

def lowerS (s : Chars) : Chars := s.map pyLowerChar

/-- Python `str`-whitespace (the ASCII part, which is all these texts use). -/
def pyIsSpace (c : Char) : Bool :=
  c = ' ' ∨ c = '\t' ∨ c = '\n' ∨ c = '\x0d' ∨ c = '\x0b' ∨ c = '\x0c'

/-- Python `str.strip()`. -/
def pyStrip (s : Chars) : Chars :=
  ((s.dropWhile pyIsSpace).reverse.dropWhile pyIsSpace).reverse

/-- `sub` occurs in `hay` at position `i` (both already case-folded by callers
that need case-insensitivity). -/
def occursAt (sub hay : Chars) (i : Nat) : Bool :=
  sub.isPrefixOf (hay.drop i)

/-- Python `sub in hay` (substring containment). -/
def inStr (sub hay : Chars) : Bool :=
  (List.range (hay.length + 1)).any (occursAt sub hay)

/-- Python `hay.find(sub)`: index of the first occurrence, `none` for `-1`. -/
def pyFind (hay sub : Chars) : Option Nat :=
  ((List.range (hay.length + 1)).filter (occursAt sub hay)).head?

/-- Python slice `s[a:b]` for already-clamped bounds `0 ≤ a`, `b ≤ len(s)`. -/
def sliceCl (s : Chars) (a b : Nat) : Chars :=
  (s.take b).drop a

/-- `RelationExtractor._find_all_positions`: all positions of `sub` in `text`,
both lowered.  The Python loop (`find` from `pos + 1` repeatedly) enumerates
exactly every occurrence position in increasing order, which is this filter. -/
def findAllPositions (text sub : Chars) : List Nat :=
  (List.range (text.length + 1)).filter (fun i => occursAt (lowerS sub) (lowerS text) i)

/-- Python `sorted(set(xs))` for position lists whose members are all `≤ bound`. -/
def sortedSet (xs : List Nat) (bound : Nat) : List Nat :=
  (List.range (bound + 1)).filter (fun i => xs.contains i)

/-- Python `abs(a - b)` on two `Nat` positions. -/
def natDist (a b : Nat) : Nat :=
  ((a : Int) - (b : Int)).natAbs

/-- The raw split of a string at characters satisfying `sep` (pieces between
separator characters, empty pieces included). -/
def rawSplit (sep : Char → Bool) (s : Chars) : List Chars :=
  s.foldr
    (fun c acc =>
      if sep c then [] :: acc
      else
        match acc with
        | [] => [[c]]
        | t :: ts => (c :: t) :: ts)
    []

/-- Generic Python-style split: break at characters satisfying `sep`, dropping
empty pieces (like `str.split()` with no argument, and like the
`re.split(r'[\s-]+', ...)` + skip-empty-words loop in the location normalizer). -/
def splitDrop (sep : Char → Bool) (s : Chars) : List Chars :=
  (rawSplit sep s).filter (fun t => t ≠ [])

/-- A `sep`-free nonempty word: what every piece of a `splitDrop` is. -/
def TokenOf (sep : Char → Bool) (t : Chars) : Prop :=
  t ≠ [] ∧ ∀ c ∈ t, sep c = false

/-- Python `s.split()` (whitespace split, empty pieces dropped). -/
def pySplit (s : Chars) : List Chars := splitDrop pyIsSpace s

/-- Python `x.split()[0] if x else ''`.  Raises `IndexError` (modelled as
`Except.error`) when `x` is nonempty but consists only of whitespace. -/
def firstTokenOr (s : Chars) : Except String Chars :=
  if s = [] then .ok []
  else
    match pySplit s with
    | [] => .error "list index out of range"
    | t :: _ => .ok t

/-- Russian vowels of the `rstrip('аеиоуыэюя')` call in the extractor. -/
def ruVowel (c : Char) : Bool :=
  c = 'а' ∨ c = 'е' ∨ c = 'и' ∨ c = 'о' ∨ c = 'у' ∨ c = 'ы' ∨ c = 'э' ∨ c = 'ю' ∨ c = 'я'

/-- Python `s.rstrip('аеиоуыэюя')`. -/
def rstripVowels (s : Chars) : Chars :=
  (s.reverse.dropWhile ruVowel).reverse

/-! ## Relation extractor (`relation_extractor.py`) -/

/-- One raw entity mention as produced by the entity extractor: the dict
`{'text': ..., 'start': ..., 'end': ..., 'normalized': ...}` (the unused
`chunks` key is omitted).  `end` is a Lean keyword, so the field is named
`stop` (as in the Natasha span it is copied from). -/
structure Mention where
  text : Chars
  start : Nat
  stop : Nat
  normalized : Chars
deriving Repr, DecidableEq

/-- The entity mapping as consumed by `RelationExtractor`: it only ever reads
`entities.get('PERSON', [])` and `entities.get('LOC', [])`. -/
structure Entities where
  PERSON : List Mention
  LOC : List Mention
deriving Repr, DecidableEq

/-- A relation dict built by the extractor.  All producers in
`relation_extractor.py` write every one of these keys (so the `.get(...)`
reads with defaults elsewhere never see a missing key); `is_reverse` is only
written by the synthesizer and is `false` for extracted relations. -/
structure Relation where
  source : Chars
  target : Chars
  type : String
  confidence : ℚ
  context : Chars
  source_type : String
  target_type : String
  is_reverse : Bool := false
deriving Repr, DecidableEq

/-- The `(source, target, type)` dedup key. -/
abbrev RKey := Chars × Chars × String

def relKey (r : Relation) : RKey := (r.source, r.target, r.type)

def revKey (r : Relation) : RKey := (r.target, r.source, r.type)

def RESIDENCE_KEYWORDS : List Chars :=
  [w "из", w "в", w "живёт", w "живет", w "проживает", w "родом", w "родился",
   w "родилась", w "уроженец", w "уроженка", w "жил", w "жила", w "жили",
   w "живут", w "находится",
   w "from", w "lives in", w "born in", w "from", w "resides in", w "native of"]

def FAMILY_KEYWORDS : List Chars :=
  [w "брат", w "сестра", w "мать", w "отец", w "сын", w "дочь", w "родственники",
   w "родственник", w "семья", w "родители", w "дед", w "бабушка", w "внук",
   w "внучка", w "дядя", w "тётя",
   w "brother", w "sister", w "mother", w "father", w "son", w "daughter",
   w "family", w "relative", w "parent", w "grandfather", w "grandmother",
   w "uncle", w "aunt"]

def FRIENDSHIP_KEYWORDS : List Chars :=
  [w "друзья", w "друг", w "подруга", w "знаком", w "встретил", w "встретила",
   w "знал", w "знала",
   w "friends", w "friend", w "met", w "know", w "knew", w "acquaintance"]

def WORK_KEYWORDS : List Chars :=
  [w "коллеги", w "коллега", w "работал", w "работала", w "начальник",
   w "подчинённый",
   w "colleagues", w "colleague", w "worked", w "boss", w "employee", w "manager"]

def LOVE_KEYWORDS : List Chars :=
  [w "любовь", w "любит", w "любила", w "женат", w "замужем", w "жена", w "муж",
   w "влюблён",
   w "love", w "loves", w "married", w "wife", w "husband", w "in love"]

/-- Insertion into an insertion-ordered Python dict: an existing key keeps its
position and gets the new value, a new key is appended. -/
def dictInsert (d : List (Chars × Mention)) (k : Chars) (v : Mention) :
    List (Chars × Mention) :=
  if d.any (fun p => p.1 = k) then
    d.map (fun p => if p.1 = k then (k, v) else p)
  else d ++ [(k, v)]

/-- The case endings tried for declined location forms (the list in the source
contains `е` twice; the duplicate insert is a no-op but is kept). -/
def CASE_ENDINGS : List Chars :=
  [w "а", w "е", w "и", w "у", w "ом", w "ой", w "е", w "ами"]

/-- `loc_text_variants` of `_extract_person_location_relations`: every spelling
variant of each location (normalized, original, and stem + common endings). -/
def locTextVariants (locations : List Mention) : List (Chars × Mention) :=
  locations.foldl
    (fun d loc =>
      let locNormalized := lowerS loc.normalized
      let locOriginal := lowerS loc.text
      let d := dictInsert d locNormalized loc
      let d := dictInsert d locOriginal loc
      let base := rstripVowels locNormalized
      if base ≠ [] ∧ base ≠ locNormalized then
        CASE_ENDINGS.foldl (fun d ending => dictInsert d (base ++ ending) loc) d
      else d)
    []

/-- Method 1 of `_extract_person_location_relations` for one person: keyword
scan of the ±300-char context; for each residence keyword present (`in` test
and then `find`, embedded as one `pyFind` match), the first location variant
found in the ±100-char search window yields a RESIDENCE relation (the `break`
ends only the variant loop, so every hitting keyword can append). -/
def method1Person (text : Chars) (variants : List (Chars × Mention))
    (acc : List Relation) (person : Mention) : List Relation :=
  let context := sliceCl text (person.start - 300) (min text.length (person.stop + 300))
  let contextLower := lowerS context
  RESIDENCE_KEYWORDS.foldl
    (fun acc keyword =>
      match pyFind contextLower keyword with
      | none => acc
      | some keywordPos =>
        let searchWindow :=
          sliceCl context (keywordPos - 100) (min context.length (keywordPos + 100))
        let swLower := lowerS searchWindow
        match variants.find? (fun vd =>
            inStr vd.1 swLower ||
            (pySplit vd.1).any (fun part => part.length > 3 && inStr part swLower)) with
        | none => acc
        | some vd =>
          acc ++ [{ source := person.normalized
                    target := vd.2.normalized
                    type := "RESIDENCE"
                    confidence := 0.8
                    context := (pyStrip searchWindow).take 150
                    source_type := "PERSON"
                    target_type := "LOC" }])
    acc

/-- Lines 207–216 of `relation_extractor.py` build a `person_name_variants`
dict that is never read afterwards; the only observable effect of that loop is
the possible `IndexError` from `split()[0]`, which this pass models. -/
def personVariantsPass (persons : List Mention) : Except String Unit :=
  persons.foldlM
    (fun _ person => do
      let _ ← firstTokenOr person.normalized
      pure ())
    ()

/-- The ±100-char context spanned between a person occurrence and a location
occurrence in method 2. -/
def proxContext (text : Chars) (pPos lPos : Nat) : Chars :=
  sliceCl text (min pPos lPos - 100) (min text.length (max pPos lPos + 100))

/-- Method 2 of `_extract_person_location_relations` for one person: proximity
search.  For each location and each person occurrence, the first location
occurrence within 200 chars whose spanned context contains a residence keyword
appends a confidence-0.75 relation (the `break` ends the `l_pos` loop). -/
def method2Person (text : Chars) (locations : List Mention)
    (acc : List Relation) (person : Mention) : Except String (List Relation) := do
  let personFirstName ← firstTokenOr person.normalized
  if personFirstName = [] then pure acc
  else
    pure (locations.foldl
      (fun acc loc =>
        ((sortedSet
            (([personFirstName, person.normalized].filter (fun v => v ≠ [])).foldl
              (fun a v => a ++ findAllPositions text v) [])
            text.length).take 20).foldl
          (fun acc pPos =>
            match ((sortedSet
                (([loc.normalized, loc.text].filter (fun v => v ≠ [])).foldl
                  (fun a v => a ++ findAllPositions text v) [])
                text.length).take 20).find? (fun lPos =>
                natDist pPos lPos < 200 &&
                RESIDENCE_KEYWORDS.any (fun kw => inStr kw (lowerS (proxContext text pPos lPos)))) with
            | none => acc
            | some lPos =>
              acc ++ [{ source := person.normalized
                        target := loc.normalized
                        type := "RESIDENCE"
                        confidence := 0.75
                        context := (pyStrip (proxContext text pPos lPos)).take 150
                        source_type := "PERSON"
                        target_type := "LOC" }])
          acc)
      acc)

/-- One step of the final dedup of `_extract_person_location_relations` (and
of the spec-modelled Strategy C): keep the first relation of each `(source,
target, type)` key. -/
def dedupStep (st : List Relation × List RKey) (rel : Relation) :
    List Relation × List RKey :=
  if relKey rel ∈ st.2 then st else (st.1 ++ [rel], st.2 ++ [relKey rel])

def dedupByKey (rels : List Relation) : List Relation :=
  (rels.foldl dedupStep (([] : List Relation), ([] : List RKey))).1

/-- `_extract_person_location_relations` (Strategy A). -/
def extract_person_location_relations (text : Chars) (entities : Entities) :
    Except String (List Relation) :=
  let persons := entities.PERSON
  let locations := entities.LOC
  if persons = [] ∨ locations = [] then .ok []
  else do
    let _ ← personVariantsPass persons
    let rels ← List.foldlM (fun acc person => method2Person text locations acc person)
      (persons.foldl
        (fun acc person => method1Person text (locTextVariants locations) acc person) [])
      persons
    pure (dedupByKey rels)

def relationTypesKeywords : List (List Chars × String) :=
  [(FAMILY_KEYWORDS, "FAMILY"),
   (FRIENDSHIP_KEYWORDS, "FRIENDSHIP"),
   (WORK_KEYWORDS, "WORK"),
   (LOVE_KEYWORDS, "LOVE")]

/-- The inner `for person2 in persons` loop of
`_extract_person_person_relations`: the first other person whose name variants
appear in the search window and who has an occurrence within 600 chars of
`p1Pos` is returned (the code then appends and `break`s); scanning a person
with a nonempty all-whitespace normalized name raises. -/
def findPerson2 (text : Chars) (person1 : Mention) (swLower : Chars) (p1Pos : Nat) :
    List Mention → Except String (Option Chars)
  | [] => .ok none
  | person2 :: rest => do
    if person1.normalized = person2.normalized then
      findPerson2 text person1 swLower p1Pos rest
    else
      let p2First ← firstTokenOr person2.normalized
      if p2First = [] then findPerson2 text person1 swLower p1Pos rest
      else if (((if p2First ≠ [] then
              [lowerS person2.normalized, lowerS person2.text] ++ [lowerS p2First]
            else [lowerS person2.normalized, lowerS person2.text]).filter
              (fun v => v ≠ [])).any (fun v => inStr v swLower)) then
        if ((([p2First, person2.normalized, person2.text].filter (fun v => v ≠ [])).foldl
              (fun a v => a ++ findAllPositions text v) []).take 20).any
            (fun p2Pos => natDist p1Pos p2Pos < 600) then
          .ok (some person2.normalized)
        else findPerson2 text person1 swLower p1Pos rest
      else findPerson2 text person1 swLower p1Pos rest

/-- The body of `_extract_person_person_relations` for one `person1`. -/
def personPersonScan (text : Chars) (persons : List Mention)
    (acc : List Relation) (person1 : Mention) : Except String (List Relation) := do
  let p1First ← firstTokenOr person1.normalized
  if p1First = [] then pure acc
  else
    List.foldlM
      (fun acc p1Pos =>
        let context := sliceCl text (p1Pos - 300) (min text.length (p1Pos + p1First.length + 300))
        let contextLower := lowerS context
        relationTypesKeywords.foldlM
          (fun acc tk =>
            tk.1.foldlM
              (fun acc keyword =>
                match pyFind contextLower keyword with
                | none => pure acc
                | some keywordPos =>
                  let searchWindow :=
                    sliceCl context (keywordPos - 150) (min context.length (keywordPos + 150))
                  let swLower := lowerS searchWindow
                  do
                    match ← findPerson2 text person1 swLower p1Pos persons with
                    | none => pure acc
                    | some p2Name =>
                      pure (acc ++
                        [{ source := person1.normalized
                           target := p2Name
                           type := tk.2
                           confidence := 0.75
                           context := (pyStrip searchWindow).take 150
                           source_type := "PERSON"
                           target_type := "PERSON" }]))
              acc)
          acc)
      acc
      ((sortedSet
        (([p1First, person1.normalized, person1.text].filter (fun v => v ≠ [])).foldl
          (fun a v => a ++ findAllPositions text v) [])
        text.length).take 30)

/-- One step of the final dedup of `_extract_person_person_relations`: a
relation is kept only if neither its key nor its mirrored key was seen; only
the kept key is added to `seen`. -/
def dedupRevStep (st : List Relation × List RKey) (rel : Relation) :
    List Relation × List RKey :=
  if relKey rel ∈ st.2 ∨ revKey rel ∈ st.2 then st
  else (st.1 ++ [rel], st.2 ++ [relKey rel])

def dedupByKeyRev (rels : List Relation) : List Relation :=
  (rels.foldl dedupRevStep (([] : List Relation), ([] : List RKey))).1

/-- `_extract_person_person_relations` (Strategy B). -/
def extract_person_person_relations (text : Chars) (entities : Entities) :
    Except String (List Relation) :=
  let persons := entities.PERSON
  if persons.length < 2 then .ok []
  else do
    let rels ← persons.foldlM (fun acc person1 => personPersonScan text persons acc person1) []
    pure (dedupByKeyRev rels)

/-- The `bidirectional_map` dict literal of `_create_bidirectional_relations`
(`bidirectional_map.get(rel_type)` as a key-by-key comparison). -/
def bidirectionalMap (t : String) : Option String :=
  if t = "RESIDENCE" then some "HAS_RESIDENT"
  else if t = "FAMILY" then some "FAMILY"
  else if t = "FRIENDSHIP" then some "FRIENDSHIP"
  else if t = "WORK" then some "WORK"
  else if t = "LOVE" then some "LOVE"
  else none

/-- The synthesized reverse relation record. -/
def mkReverseRel (r : Relation) (reverseType : String) : Relation :=
  { source := r.target
    target := r.source
    type := reverseType
    confidence := r.confidence
    context := r.context
    source_type := r.target_type
    target_type := r.source_type
    is_reverse := true }

/-- One iteration of the `for relation in relations` loop of
`_create_bidirectional_relations`, on state (all_relations, seen_reverse).
For `FAMILY`/`FRIENDSHIP`/`LOVE` the code first checks the mirrored key
against `seen_reverse`; when it is absent (which is the case the first time a
pair is met) it records the key and `continue`s without appending. -/
def bidirStep (st : List Relation × List RKey) (relation : Relation) :
    List Relation × List RKey :=
  let relType := relation.type
  let source := relation.source
  let target := relation.target
  let step2 : List Relation × List RKey → List Relation × List RKey := fun st =>
    match bidirectionalMap relType with
    | none => st
    | some reverseType =>
      let reverseKey : RKey := (target, source, reverseType)
      if reverseKey ∈ st.2 then st
      else (st.1 ++ [mkReverseRel relation reverseType], st.2 ++ [reverseKey])
  if relType = "FAMILY" ∨ relType = "FRIENDSHIP" ∨ relType = "LOVE" then
    let reverseKey : RKey := (target, source, relType)
    if reverseKey ∉ st.2 then (st.1, st.2 ++ [reverseKey])
    else step2 st
  else step2 st

/-- `_create_bidirectional_relations`. -/
def create_bidirectional_relations (relations : List Relation) : List Relation :=
  (relations.foldl bidirStep (relations, ([] : List RKey))).1

/-- All ordered pairs `(xᵢ, xⱼ)` with `i < j` of a list. -/
def orderedPairs : List Mention → List (Mention × Mention)
  | [] => []
  | p :: rest => rest.map (fun q => (p, q)) ++ orderedPairs rest

/-- Modelled from the spec: `extract_relations` calls
`self._extract_simple_relations(text, entities)` (Strategy C), but no method of
that name exists anywhere in the repository sources — only this call site.
Per the spec, Strategy C must pair persons heuristically, emit low-confidence
generic relations, terminate, and must not duplicate any
`(source, target, type)` key; the exact categorization is implementation-
defined.  This model takes the simplest deterministic choice: one generic
`RELATED` relation per ordered pair of persons in list order, deduplicated by
key. -/
def extract_simple_relations (_text : Chars) (entities : Entities) : List Relation :=
  dedupByKey
    ((orderedPairs entities.PERSON).map (fun pq =>
      { source := pq.1.normalized
        target := pq.2.normalized
        type := "RELATED"
        confidence := 0.3
        context := []
        source_type := "PERSON"
        target_type := "PERSON" }))

/-- `RelationExtractor.extract_relations`. -/
def extract_relations (text : Chars) (entities : Entities) :
    Except String (List Relation) := do
  let personLocRels ← extract_person_location_relations text entities
  let personPersonRels ← extract_person_person_relations text entities
  pure (create_bidirectional_relations
    (if (personLocRels ++ personPersonRels).length = 0 ∧ 2 ≤ entities.PERSON.length then
      (personLocRels ++ personPersonRels) ++ extract_simple_relations text entities
    else personLocRels ++ personPersonRels))

/-! ## Ontology builder (`ontology_builder.py`)

`build_ontology` consumes arbitrary entity and relation dicts whose optional
keys it reads with `.get(..., default)`; those keys are `Option` fields here.
Names at this module boundary are plain `String`s (no character-level
processing happens in this module). -/

/-- An entity dict as consumed by `build_ontology` (it reads `'normalized'`
and `entity.get('start', 0)`). -/
structure EntityRecord where
  normalized : String
  start : Option Nat
deriving Repr, DecidableEq

/-- A relation dict as consumed by `build_ontology`. -/
structure RelRecord where
  source : String
  target : String
  type : String
  confidence : Option ℚ
  context : Option String
  source_type : Option String
  target_type : Option String
deriving Repr, DecidableEq

/-- The per-entity data stored under `ontology['entities'][name]`:
the `type` plus the `attributes` sub-dict.  `first_mention` is only written for
entities created during the entity pass; `total_relations` and
`relation_types` are written by `_enrich_entities` (0 / empty beforehand). -/
structure EntityData where
  type : String
  mentions : Nat
  first_mention : Option Nat := none
  total_relations : Nat := 0
  relation_types : List (String × Nat) := []
deriving Repr, DecidableEq

/-- A relation as stored in `ontology['relations']` (only these five keys are
copied from the input dict). -/
structure ORelation where
  source : String
  target : String
  type : String
  confidence : ℚ
  context : String
deriving Repr, DecidableEq

structure Ontology where
  entities : List (String × EntityData)
  relations : List ORelation
  relation_types : List String
deriving Repr, DecidableEq

/-- Dict lookup on the insertion-ordered entity mapping. -/
def lookupEnt (ont : List (String × EntityData)) (name : String) : Option EntityData :=
  (ont.find? (fun p => p.1 = name)).map (fun p => p.2)

def isKey (ont : List (String × EntityData)) (name : String) : Bool :=
  ont.any (fun p => p.1 = name)

/-- `self.ontology['entities'][name]['attributes']['mentions'] += 1` (the
entity mapping has unique keys throughout, see `addEntities_keys_nodup`). -/
def bumpMentions (ont : List (String × EntityData)) (name : String) :
    List (String × EntityData) :=
  ont.map (fun p =>
    if p.1 = name then (p.1, { p.2 with mentions := p.2.mentions + 1 }) else p)

/-- One entity of the `for entity_type, entity_list in entities.items()` pass. -/
def addEntityStep (ont : List (String × EntityData)) (e : String × EntityRecord) :
    List (String × EntityData) :=
  if isKey ont e.2.normalized then bumpMentions ont e.2.normalized
  else
    ont ++ [(e.2.normalized,
      { type := e.1
        mentions := 1
        first_mention := some (e.2.start.getD 0) })]

/-- The entity pass of `build_ontology` (lines 33–46): iterate all kinds and
their mention lists in order. -/
def addEntities (es : List (String × List EntityRecord)) : List (String × EntityData) :=
  es.foldl (fun ont kl => kl.2.foldl (fun ont e => addEntityStep ont (kl.1, e)) ont) []

/-- The `entities.items()` iteration flattened to `(kind, record)` pairs in
iteration order. -/
def flatEntities (es : List (String × List EntityRecord)) : List (String × EntityRecord) :=
  (es.map (fun kl => kl.2.map (fun e => (kl.1, e)))).flatten

/-- The `if <name> not in self.ontology['entities']` blocks of the relation
pass: lazily create a missing entity with the given kind and zero mentions. -/
def ensureEntity (ont : List (String × EntityData)) (name kind : String) :
    List (String × EntityData) :=
  if isKey ont name then ont
  else ont ++ [(name, { type := kind, mentions := 0 })]

/-- One iteration of the relation pass of `build_ontology` (lines 49–76):
lazily create missing endpoint entities (kind from the relation's recorded
kind, else UNKNOWN; zero mentions), append the copied relation, record its
type. -/
def addRelationStep (st : List (String × EntityData) × List ORelation × List String)
    (r : RelRecord) : List (String × EntityData) × List ORelation × List String :=
  (ensureEntity (ensureEntity st.1 r.source (r.source_type.getD "UNKNOWN"))
      r.target (r.target_type.getD "UNKNOWN"),
   st.2.1 ++ [{ source := r.source
                target := r.target
                type := r.type
                confidence := r.confidence.getD 0.5
                context := r.context.getD "" }],
   if r.type ∈ st.2.2 then st.2.2 else st.2.2 ++ [r.type])

def addRelations (ont : List (String × EntityData)) (rels : List RelRecord) :
    List (String × EntityData) × List ORelation × List String :=
  rels.foldl addRelationStep (ont, [], [])

/-- The `relation_count` defaultdict of `_enrich_entities`, as a total
function: each relation contributes +1 for its source and +1 for its target. -/
def relationCount (rels : List ORelation) (name : String) : Nat :=
  rels.foldl
    (fun n r => n + (if r.source = name then 1 else 0) + (if r.target = name then 1 else 0))
    0

/-- Increment of one type tag in an insertion-ordered counting dict. -/
def bumpType (d : List (String × Nat)) (t : String) : List (String × Nat) :=
  if d.any (fun p => p.1 = t) then
    d.map (fun p => if p.1 = t then (p.1, p.2 + 1) else p)
  else d ++ [(t, 1)]

/-- The `relation_types_count[name]` inner dict of `_enrich_entities`. -/
def relTypesCount (rels : List ORelation) (name : String) : List (String × Nat) :=
  rels.foldl
    (fun d r =>
      let d := if r.source = name then bumpType d r.type else d
      if r.target = name then bumpType d r.type else d)
    []

/-- `_enrich_entities`: write the per-entity relation statistics back. -/
def enrichEntities (ont : List (String × EntityData)) (rels : List ORelation) :
    List (String × EntityData) :=
  ont.map (fun p =>
    (p.1, { p.2 with
              total_relations := relationCount rels p.1
              relation_types := relTypesCount rels p.1 }))

/-- `OntologyBuilder.build_ontology` on a freshly constructed builder. -/
def build_ontology (es : List (String × List EntityRecord)) (rels : List RelRecord) :
    Ontology :=
  let ent := addEntities es
  let st := addRelations ent rels
  { entities := enrichEntities st.1 st.2.1
    relations := st.2.1
    relation_types := st.2.2 }

/-- The kind the relation pass would record for `name` at its first reference
(source position first, then target), `none` when no relation references it. -/
def firstRefKind (name : String) : List RelRecord → Option String
  | [] => none
  | r :: rest =>
    if r.source = name then some (r.source_type.getD "UNKNOWN")
    else if r.target = name then some (r.target_type.getD "UNKNOWN")
    else firstRefKind name rest

/-! ## Entity normalizer (`entity_extractor.py`, `_normalize_persons` /
`_normalize_locations`)

The mention dicts flowing into the normalizer may lack `'normalized'`
(`person.get('normalized', person['text'].strip())`), so it is an `Option`
here; `mentions_count` is written by the normalizer itself (raw mentions carry
the default 0, matching a dict without the key, which nothing ever reads). -/

structure PMention where
  text : Chars
  start : Nat
  stop : Nat
  normalized : Option Chars
  mentions_count : Nat := 0
deriving Repr, DecidableEq

/-- The name-to-key computation of `_normalize_persons`, in original case:
first token + last token for multi-token names, the token itself for one
token, the raw name when it has no tokens. -/
def personKeyFn (normalizedName : Chars) : Chars :=
  match pySplit normalizedName with
  | [] => normalizedName
  | [p] => p
  | p :: q :: rest => p ++ [' '] ++ (q :: rest).getLast (by simp)

/-- The dedup key of `_normalize_persons`: `personKeyFn` applied to
`person.get('normalized', person['text'].strip())`. -/
def personKeyOf (m : PMention) : Chars :=
  personKeyFn (m.normalized.getD (pyStrip m.text))

/-- The grouping fold of `_normalize_persons` / `_normalize_locations`:
an insertion-ordered dict from lower-cased key to (display name fixed by the
first member, members in order). -/
def groupFold (keyOf : PMention → Chars) (ms : List PMention) :
    List (Chars × (Chars × List PMention)) :=
  ms.foldl
    (fun gs m =>
      let key := keyOf m
      let keyLower := lowerS key
      if gs.any (fun g => g.1 = keyLower) then
        gs.map (fun g => if g.1 = keyLower then (g.1, (g.2.1, g.2.2 ++ [m])) else g)
      else gs ++ [(keyLower, (key, [m]))])
    []

/-- Turn one group into its canonical entity: copy of the first member with
the group's display name and the bucket size as mention count (groups are
never empty; the `[]` branch is unreachable). -/
def groupEntity (g : Chars × (Chars × List PMention)) : PMention :=
  match g.2.2 with
  | [] => { text := [], start := 0, stop := 0, normalized := none }
  | first :: _ => { first with normalized := some g.2.1, mentions_count := g.2.2.length }

/-- `EntityExtractor._normalize_persons`. -/
def normalize_persons (persons : List PMention) : List PMention :=
  (groupFold personKeyOf persons).map groupEntity

/-- Whitespace-or-hyphen, the separator class of `re.split(r'[\s-]+', name)`. -/
def wsOrHyphen (c : Char) : Bool := pyIsSpace c ∨ c = '-'

/-- The per-word normalization inside `_get_location_base_form`: external
normal form (`pymorphy2`, the parameter `nf`), re-capitalized like the input
word. -/
def normalizeLocWord (nf : Chars → Chars) (word : Chars) : Chars :=
  let normalForm := nf word
  match word with
  | [] => normalForm
  | c :: _ =>
    if pyIsUpper c then
      match normalForm with
      | [] => []
      | n0 :: ntail => if ntail ≠ [] then pyUpperChar n0 :: ntail else [pyUpperChar n0]
    else normalForm

/-- Python `sep.join(words)`. -/
def joinSep (sep : Char) (ws : List Chars) : Chars :=
  match ws with
  | [] => []
  | t :: ts => ts.foldl (fun acc u => acc ++ [sep] ++ u) t

/-- `EntityExtractor._get_location_base_form`, parameterized by the external
pymorphy2 word normalizer `nf`. -/
def get_location_base_form (nf : Chars → Chars) (name : Chars) : Chars :=
  let name := pyStrip name
  if name = [] then name
  else
    let normalizedWords := (splitDrop wsOrHyphen name).map (normalizeLocWord nf)
    if name.contains '-' then joinSep '-' normalizedWords
    else joinSep ' ' normalizedWords

/-- The dedup key of `_normalize_locations` in original case (the stripped
original surface form computed on line 378 of the source is never used and is
omitted). -/
def locKeyOf (nf : Chars → Chars) (m : PMention) : Chars :=
  get_location_base_form nf (m.normalized.getD (pyStrip m.text))

/-- `EntityExtractor._normalize_locations`. -/
def normalize_locations (nf : Chars → Chars) (locations : List PMention) : List PMention :=
  (groupFold (locKeyOf nf) locations).map groupEntity

/-- The per-entity effect of a second normalizer run: everything preserved
except the mention count, which restarts at 1. -/
def resetCount (m : PMention) : PMention :=
  { m with mentions_count := 1 }

/-! ## Concrete inputs used by the claims -/

/-- Scenario 1 of the spec: `"Иван живёт в Саратове."`. -/
def s1text : Chars := w "Иван живёт в Саратове."

def s1ents : Entities :=
  { PERSON := [{ text := w "Иван", start := 0, stop := 4, normalized := w "Иван" }]
    LOC := [{ text := w "Саратове", start := 13, stop := 21, normalized := w "Саратов" }] }

def s1rel1 : Relation :=
  { source := w "Иван", target := w "Саратов", type := "RESIDENCE", confidence := 0.8
    context := w "Иван живёт в Саратове.", source_type := "PERSON", target_type := "LOC" }

def s1rel2 : Relation :=
  { source := w "Саратов", target := w "Иван", type := "HAS_RESIDENT", confidence := 0.8
    context := w "Иван живёт в Саратове.", source_type := "LOC", target_type := "PERSON"
    is_reverse := true }

/-- Scenario 2 of the spec: `"Пётр и Анна — друзья."`. -/
def s2text : Chars := w "Пётр и Анна — друзья."

def s2ents : Entities :=
  { PERSON := [{ text := w "Пётр", start := 0, stop := 4, normalized := w "Пётр" },
               { text := w "Анна", start := 7, stop := 11, normalized := w "Анна" }]
    LOC := [] }

def s2rel : Relation :=
  { source := w "Пётр", target := w "Анна", type := "FRIENDSHIP", confidence := 0.75
    context := w "Пётр и Анна — друзья.", source_type := "PERSON", target_type := "PERSON" }

/-- An entity mapping with a nonempty, all-whitespace person name: Strategy B
reaches `" ".split()[0]`. -/
def badEnts : Entities :=
  { PERSON := [{ text := w "Иван", start := 0, stop := 4, normalized := w " " },
               { text := w "Пётр", start := 5, stop := 9, normalized := w "Пётр" }]
    LOC := [] }

/-- Two well-formed persons in an empty text: strategies A and B find nothing,
so the fallback Strategy C runs. -/
def fbEnts : Entities :=
  { PERSON := [{ text := w "Иван", start := 0, stop := 4, normalized := w "Иван" },
               { text := w "Пётр", start := 5, stop := 9, normalized := w "Пётр" }]
    LOC := [] }

/-- Concrete ontology-builder inputs for the witnesses. -/
def obEnts : List (String × List EntityRecord) :=
  [("PERSON", [{ normalized := "Иван", start := some 0 }])]

def obRels : List RelRecord :=
  [{ source := "Иван", target := "Саратов", type := "RESIDENCE", confidence := some 0.8
     context := some "ctx", source_type := some "PERSON", target_type := some "LOC" }]

/-- The same normalized name under two entity kinds, for the C10 witness. -/
def obEnts2 : List (String × List EntityRecord) :=
  [("PERSON", [{ normalized := "Пьер", start := some 0 }]),
   ("LOC", [{ normalized := "Пьер", start := some 7 }])]

/-- One raw person mention, used twice for the normalizer counterexample. -/
def pm : PMention :=
  { text := w "Иван", start := 0, stop := 4, normalized := some (w "Иван") }

/-- A concrete external word normalizer for the C8 witness. -/
def nf0 : Chars → Chars := fun _ => w "x"

/-- Concrete raw location mentions for the C8 witness. -/
def locA : PMention :=
  { text := w "Саратове", start := 13, stop := 21, normalized := some (w "Саратов") }

def locB : PMention :=
  { text := w "Санкт-Петербурге", start := 30, stop := 46
    normalized := some (w "Санкт-Петербург") }

/-- What Strategy B guarantees of every relation it emits: one of the four
person–person types, and distinct endpoints (`person1 == person2` is skipped). -/
def BRel (r : Relation) : Prop :=
  (r.type = "FAMILY" ∨ r.type = "FRIENDSHIP" ∨ r.type = "WORK" ∨ r.type = "LOVE")
  ∧ r.source ≠ r.target

/-- `m` is a mirror synthesized from some relation of `rels`: marked
`is_reverse`, source/target flipped, type per the policy table, confidence and
context carried over, and the endpoint kinds swapped. -/
def MirrorOf (rels : List Relation) (m : Relation) : Prop :=
  m.is_reverse = true ∧
  ∃ r ∈ rels, bidirectionalMap r.type = some m.type ∧ m.source = r.target ∧
    m.target = r.source ∧ m.confidence = r.confidence ∧ m.context = r.context ∧
    m.source_type = r.target_type ∧ m.target_type = r.source_type

/-! ## Theorems -/

/-- Claim C5: on Scenario 1 the extractor returns exactly one
RESIDENCE(Иван→Саратов) and its mirror HAS_RESIDENT(Саратов→Иван), both with
confidence 0.8. -/
theorem scenario1_exact :
    extract_relations s1text s1ents = .ok [s1rel1, s1rel2]
    ∧ s1rel1.type = "RESIDENCE" ∧ s1rel1.source = w "Иван" ∧ s1rel1.target = w "Саратов"
    ∧ s1rel2.type = "HAS_RESIDENT" ∧ s1rel2.source = w "Саратов" ∧ s1rel2.target = w "Иван"
    ∧ s1rel1.confidence = 0.8 ∧ s1rel2.confidence = 0.8 := by
  refine ⟨?_, rfl, rfl, rfl, rfl, rfl, rfl, rfl, rfl⟩
  rfl

/-- Claim C1: evaluating the extractor on Scenario 2 shows that the list it
returns contains a FRIENDSHIP relation whose mirrored (target, source, type)
triple is absent — the symmetric-type branch of
`_create_bidirectional_relations` records the mirrored key as seen and skips
instead of synthesizing, so FAMILY/FRIENDSHIP/LOVE mirrors are never created,
contradicting the claim (and the function's own docstring). -/
theorem symmetric_mirror_missing :
    extract_relations s2text s2ents = .ok [s2rel]
    ∧ s2rel.type = "FRIENDSHIP"
    ∧ ¬ ∃ r ∈ [s2rel], r.source = s2rel.target ∧ r.target = s2rel.source
        ∧ r.type = s2rel.type := by
  refine ⟨by rfl, rfl, ?_⟩
  decide

/-- Claim C4: evaluating the extractor on Scenario 2 (`"Пётр и Анна —
друзья."`, both tagged as persons) shows that it returns exactly one relation,
the extracted FRIENDSHIP(Пётр→Анна) — not the two relations the claim
states, because the synthesizer never emits the FRIENDSHIP mirror. -/
theorem scenario2_one_relation :
    extract_relations s2text s2ents = .ok [s2rel]
    ∧ s2rel.source = w "Пётр" ∧ s2rel.target = w "Анна"
    ∧ s2rel.type = "FRIENDSHIP" ∧ s2rel.is_reverse = false
    ∧ [s2rel].length = 1 := by
  exact ⟨by rfl, rfl, rfl, rfl, rfl, rfl⟩

/-- Claim C2 (counterexample): the extractor is not total — on a person whose
normalized name is a nonempty whitespace string, Strategy B evaluates
`" ".split()[0]`, which raises `IndexError` in Python, so `extract_relations`
does not return normally for every entity mapping. -/
theorem extractor_raises_on_whitespace_name :
    extract_relations [] badEnts = .error "list index out of range" := by
  rfl

/-- Claim C8 (counterexample): person normalization applied to its own output
does not preserve per-entity mention counts — two identical mentions of
`Иван` normalize to one entity with `mentions_count = 2`, and re-normalizing
that output resets the count to 1, so the canonical-entity sets differ. -/
theorem normalizer_not_idempotent :
    (normalize_persons [pm, pm]).map (fun m => m.mentions_count) = [2]
    ∧ (normalize_persons (normalize_persons [pm, pm])).map (fun m => m.mentions_count) = [1]
    ∧ normalize_persons (normalize_persons [pm, pm]) ≠ normalize_persons [pm, pm] := by
  exact ⟨by rfl, by rfl, by decide⟩

/-- The relation list built by one synthesizer iteration either stays as it is
or gains exactly the reverse record of the processed relation, keyed by its
mapped type, and the seen-key set only grows. -/
theorem bidirStep_fst (st : List Relation × List RKey) (r : Relation) :
    ((bidirStep st r).1 = st.1 ∧ ∃ ks, (bidirStep st r).2 = st.2 ++ ks) ∨
    (∃ ty, bidirectionalMap r.type = some ty ∧
      ¬ (r.type = "FAMILY" ∨ r.type = "FRIENDSHIP" ∨ r.type = "LOVE") ∧
      (r.target, r.source, ty) ∉ st.2 ∧
      bidirStep st r =
        (st.1 ++ [mkReverseRel r ty], st.2 ++ [(r.target, r.source, ty)])) := by
  by_cases htrio : r.type = "FAMILY" ∨ r.type = "FRIENDSHIP" ∨ r.type = "LOVE"
  · have hmap : bidirectionalMap r.type = some r.type := by
      rcases htrio with h | h | h <;> simp [bidirectionalMap, h]
    by_cases hseen : ((r.target, r.source, r.type) : RKey) ∈ st.2
    · refine Or.inl ⟨?_, [], ?_⟩ <;> simp [bidirStep, htrio, hseen, hmap]
    · refine Or.inl ⟨?_, [(r.target, r.source, r.type)], ?_⟩ <;>
        simp [bidirStep, htrio, hseen]
  · rcases hmap : bidirectionalMap r.type with _ | ty
    · refine Or.inl ⟨?_, [], ?_⟩ <;> simp [bidirStep, htrio, hmap]
    · by_cases hseen : ((r.target, r.source, ty) : RKey) ∈ st.2
      · refine Or.inl ⟨?_, [], ?_⟩ <;> simp [bidirStep, htrio, hmap, hseen]
      · refine Or.inr ⟨ty, rfl, htrio, hseen, ?_⟩
        simp [bidirStep, htrio, hmap, hseen]

/-- The synthesizer fold preserves the pass-through shape. -/
theorem foldl_bidirStep_shape (rels : List Relation) :
    ∀ (l : List Relation) (st : List Relation × List RKey),
      (∀ x ∈ l, x ∈ rels) →
      (∃ ap, st.1 = rels ++ ap ∧ ∀ m ∈ ap, MirrorOf rels m) →
      ∃ ap, (l.foldl bidirStep st).1 = rels ++ ap ∧ ∀ m ∈ ap, MirrorOf rels m := by
  intro l
  induction l with
  | nil => intro st _ hst; simpa using hst
  | cons x xs ih =>
    intro st hl hst
    rw [List.foldl_cons]
    refine ih (bidirStep st x) (fun y hy => hl y (List.mem_cons_of_mem _ hy)) ?_
    rcases bidirStep_fst st x with ⟨h1, _⟩ | ⟨ty, hty, _, _, h⟩
    · rw [h1]; exact hst
    · rcases hst with ⟨ap, hap, hmir⟩
      refine ⟨ap ++ [mkReverseRel x ty], ?_, ?_⟩
      · rw [h]; dsimp only; rw [hap, List.append_assoc]
      · intro m hm
        rcases List.mem_append.1 hm with hm | hm
        · exact hmir m hm
        · have hmx : m = mkReverseRel x ty := by simpa using hm
          subst hmx
          exact ⟨rfl, x, hl x (List.mem_cons_self _ _), hty, rfl, rfl, rfl, rfl, rfl, rfl⟩

/-- Claim C9: `_create_bidirectional_relations` returns the input relations
unmodified as a prefix, in their original order, and every element after that
prefix is a synthesized mirror of some input relation, marked `is_reverse`,
carrying that relation's confidence and context and its endpoint kinds
swapped. -/
theorem synthesizer_pass_through (rels : List Relation) :
    ∃ suffix, create_bidirectional_relations rels = rels ++ suffix
      ∧ ∀ m ∈ suffix, MirrorOf rels m := by
  have h := foldl_bidirStep_shape rels rels (rels, ([] : List RKey))
    (fun x hx => hx) ⟨[], by simp, by simp⟩
  simpa [create_bidirectional_relations] using h

theorem except_ok_bind {β γ : Type} (v : β) (g : β → Except String γ) :
    (Except.ok v >>= g) = g v := rfl

theorem except_error_bind {β γ : Type} (e : String) (g : β → Except String γ) :
    ((Except.error e : Except String β) >>= g) = .error e := rfl

theorem except_bind_ok_exists {β γ : Type} {x : Except String β}
    (hx : ∃ b, x = .ok b) (g : β → Except String γ)
    (hg : ∀ b, ∃ c, g b = .ok c) : ∃ c, (x >>= g) = .ok c := by
  rcases hx with ⟨b, hb⟩
  rcases hg b with ⟨c, hc⟩
  exact ⟨c, by rw [hb, except_ok_bind, hc]⟩

/-- A monadic fold whose steps all succeed succeeds. -/
theorem foldlM_except_ok {α β : Type} (step : β → α → Except String β) :
    ∀ (xs : List α) (init : β),
      (∀ acc x, x ∈ xs → ∃ b, step acc x = .ok b) →
      ∃ out, List.foldlM step init xs = .ok out := by
  intro xs
  induction xs with
  | nil => intro init _; exact ⟨init, rfl⟩
  | cons x xs ih =>
    intro init h
    rcases h init x (List.mem_cons_self _ _) with ⟨b, hb⟩
    rw [List.foldlM_cons, hb, except_ok_bind]
    exact ih b (fun acc y hy => h acc y (List.mem_cons_of_mem _ hy))

/-- Invariant preservation along a successful monadic fold. -/
theorem foldlM_except_inv {α β : Type} (step : β → α → Except String β) (P : β → Prop) :
    ∀ (xs : List α) (init out : β),
      List.foldlM step init xs = .ok out →
      (∀ acc x b, x ∈ xs → step acc x = .ok b → P acc → P b) →
      P init → P out := by
  intro xs
  induction xs with
  | nil =>
    intro init out hfold _ hinit
    cases hfold
    exact hinit
  | cons x xs ih =>
    intro init out hfold hstep hinit
    rw [List.foldlM_cons] at hfold
    cases hb : step init x with
    | error e => rw [hb, except_error_bind] at hfold; cases hfold
    | ok b =>
      rw [hb, except_ok_bind] at hfold
      exact ih b out hfold
        (fun acc y c hy => hstep acc y c (List.mem_cons_of_mem _ hy))
        (hstep init x b (List.mem_cons_self _ _) hb hinit)

/-- Invariant preservation along a pure fold. -/
theorem foldl_inv {α β : Type} (step : β → α → β) (P : β → Prop) :
    ∀ (xs : List α) (init : β),
      (∀ acc x, x ∈ xs → P acc → P (step acc x)) →
      P init → P (xs.foldl step init) := by
  intro xs
  induction xs with
  | nil => intro init _ hinit; exact hinit
  | cons x xs ih =>
    intro init h hinit
    rw [List.foldl_cons]
    exact ih (step init x)
      (fun acc y hy => h acc y (List.mem_cons_of_mem _ hy))
      (h init x (List.mem_cons_self _ _) hinit)

theorem revKey_eq_relKey_iff (r x : Relation) :
    revKey r = relKey x ↔ relKey r = revKey x := by
  simp only [relKey, revKey, Prod.ext_iff]
  tauto

theorem relKey_type {k : RKey} {l : List Relation} (hk : k ∈ l.map relKey) :
    ∃ r ∈ l, r.type = k.2.2 ∧ r.source = k.1 ∧ r.target = k.2.1 := by
  rcases List.mem_map.1 hk with ⟨r, hr, hkey⟩
  exact ⟨r, hr, by rw [← hkey]; exact ⟨rfl, rfl, rfl⟩⟩

/-- Fold invariant of the plain key dedup. -/
theorem dedup_fold_spec (rels : List Relation) :
    ∀ st : List Relation × List RKey,
      st.2 = st.1.map relKey → (st.1.map relKey).Nodup →
      ((rels.foldl dedupStep st).2 = (rels.foldl dedupStep st).1.map relKey
       ∧ ((rels.foldl dedupStep st).1.map relKey).Nodup
       ∧ ∀ r ∈ (rels.foldl dedupStep st).1, r ∈ st.1 ∨ r ∈ rels) := by
  induction rels with
  | nil => intro st h1 h2; exact ⟨h1, h2, fun r hr => Or.inl hr⟩
  | cons x xs ih =>
    intro st h1 h2
    rw [List.foldl_cons]
    by_cases hx : relKey x ∈ st.2
    · have hstep : dedupStep st x = st := by simp [dedupStep, hx]
      rw [hstep]
      rcases ih st h1 h2 with ⟨a, b, c⟩
      exact ⟨a, b, fun r hr => (c r hr).imp id (List.mem_cons_of_mem x)⟩
    · have hstep : dedupStep st x = (st.1 ++ [x], st.2 ++ [relKey x]) := by
        simp [dedupStep, hx]
      rw [hstep]
      have h1' : ((st.1 ++ [x], st.2 ++ [relKey x]) :
          List Relation × List RKey).2 = (st.1 ++ [x]).map relKey := by
        simp [h1]
      have h2' : ((st.1 ++ [x]).map relKey).Nodup := by
        rw [List.map_append]
        refine List.Nodup.append h2 (List.nodup_singleton _) ?_
        intro k hk hk2
        have : k = relKey x := by simpa using hk2
        subst this
        exact hx (h1 ▸ hk)
      rcases ih _ h1' h2' with ⟨a, b, c⟩
      refine ⟨a, b, fun r hr => ?_⟩
      rcases c r hr with hr1 | hr1
      · rcases List.mem_append.1 hr1 with h | h
        · exact Or.inl h
        · exact Or.inr (by simpa using Or.inl (by simpa using h))
      · exact Or.inr (List.mem_cons_of_mem x hr1)

theorem dedupByKey_nodup (rels : List Relation) :
    ((dedupByKey rels).map relKey).Nodup :=
  (dedup_fold_spec rels ([], []) (by simp) (by simp)).2.1

theorem dedupByKey_subset (rels : List Relation) :
    ∀ r ∈ dedupByKey rels, r ∈ rels := by
  intro r hr
  rcases (dedup_fold_spec rels ([], []) (by simp) (by simp)).2.2 r hr with h | h
  · cases h
  · exact h

/-- Fold invariant of the key-and-mirror dedup of Strategy B. -/
theorem dedupRev_fold_spec (rels0 : List Relation)
    (hst : ∀ r ∈ rels0, r.source ≠ r.target) :
    ∀ (rels : List Relation), (∀ r ∈ rels, r ∈ rels0) →
    ∀ st : List Relation × List RKey,
      st.2 = st.1.map relKey → (st.1.map relKey).Nodup →
      (∀ r ∈ st.1, r ∈ rels0) →
      (∀ r ∈ st.1, revKey r ∉ st.2) →
      ((rels.foldl dedupRevStep st).2 = (rels.foldl dedupRevStep st).1.map relKey
       ∧ ((rels.foldl dedupRevStep st).1.map relKey).Nodup
       ∧ (∀ r ∈ (rels.foldl dedupRevStep st).1, r ∈ rels0)
       ∧ (∀ r ∈ (rels.foldl dedupRevStep st).1,
            revKey r ∉ (rels.foldl dedupRevStep st).2)) := by
  intro rels
  induction rels with
  | nil => intro _ st h1 h2 h3 h4; exact ⟨h1, h2, h3, h4⟩
  | cons x xs ih =>
    intro hmem st h1 h2 h3 h4
    rw [List.foldl_cons]
    by_cases hx : relKey x ∈ st.2 ∨ revKey x ∈ st.2
    · have hstep : dedupRevStep st x = st := by simp [dedupRevStep, hx]
      rw [hstep]
      exact ih (fun r hr => hmem r (List.mem_cons_of_mem x hr)) st h1 h2 h3 h4
    · push_neg at hx
      have hstep : dedupRevStep st x = (st.1 ++ [x], st.2 ++ [relKey x]) := by
        simp only [dedupRevStep]
        rw [if_neg (by push_neg; exact hx)]
      rw [hstep]
      have hxr : x ∈ rels0 := hmem x (List.mem_cons_self _ _)
      refine ih (fun r hr => hmem r (List.mem_cons_of_mem x hr)) _ (by simp [h1]) ?_ ?_ ?_
      · rw [List.map_append]
        refine List.Nodup.append h2 (List.nodup_singleton _) ?_
        intro k hk hk2
        have : k = relKey x := by simpa using hk2
        subst this
        exact hx.1 (h1 ▸ hk)
      · intro r hr
        rcases List.mem_append.1 hr with h | h
        · exact h3 r h
        · have : r = x := by simpa using h
          subst this; exact hxr
      · intro r hr
        rcases List.mem_append.1 hr with h | h
        · intro hcon
          rcases List.mem_append.1 hcon with hc | hc
          · exact h4 r h hc
          · have heq : revKey r = relKey x := by simpa using hc
            have : relKey r = revKey x := (revKey_eq_relKey_iff r x).1 heq
            exact hx.2 (this ▸ (h1 ▸ List.mem_map_of_mem relKey h))
        · have hrx : r = x := by simpa using h
          subst hrx
          intro hcon
          rcases List.mem_append.1 hcon with hc | hc
          · exact hx.2 hc
          · have heq : revKey r = relKey r := by simpa using hc
            have hts : r.target = r.source := by
              have := congrArg Prod.fst heq
              simpa [revKey, relKey] using this
            exact hst r hxr hts.symm

/-- What the policy table can map a non-symmetric-skipped type to. -/
theorem bidirectionalMap_cases {t ty : String}
    (h : bidirectionalMap t = some ty)
    (hntrio : ¬ (t = "FAMILY" ∨ t = "FRIENDSHIP" ∨ t = "LOVE")) :
    (t = "RESIDENCE" ∧ ty = "HAS_RESIDENT") ∨ (t = "WORK" ∧ ty = "WORK") := by
  unfold bidirectionalMap at h
  split_ifs at h with h1 h2 h3 h4 h5
  · exact Or.inl ⟨h1, by injection h with h; exact h.symm⟩
  · exact absurd (Or.inl h2) hntrio
  · exact absurd (Or.inr (Or.inl h3)) hntrio
  · exact Or.inr ⟨h4, by injection h with h; exact h.symm⟩
  · exact absurd (Or.inr (Or.inr h5)) hntrio

/-- If the input keys are unique, no WORK relation's mirrored key occurs among
them, and no input relation is typed HAS_RESIDENT, then the synthesizer output
has unique (source, target, type) triples. -/
theorem create_bidir_nodup (l : List Relation)
    (h1 : (l.map relKey).Nodup)
    (h2 : ∀ r ∈ l, r.type = "WORK" →
      ((r.target, r.source, r.type) : RKey) ∉ l.map relKey)
    (h3 : ∀ r ∈ l, r.type ≠ "HAS_RESIDENT") :
    ((create_bidirectional_relations l).map relKey).Nodup := by
  have main : ∀ (p : List Relation), (∀ x ∈ p, x ∈ l) →
      ∀ st : List Relation × List RKey,
        (∃ ap, st.1 = l ++ ap ∧ (ap.map relKey).Nodup ∧
          (∀ k ∈ ap.map relKey, k ∈ st.2) ∧
          (∀ k ∈ ap.map relKey, k ∉ l.map relKey)) →
      (∃ ap, (p.foldl bidirStep st).1 = l ++ ap ∧ (ap.map relKey).Nodup ∧
          (∀ k ∈ ap.map relKey, k ∈ (p.foldl bidirStep st).2) ∧
          (∀ k ∈ ap.map relKey, k ∉ l.map relKey)) := by
    intro p
    induction p with
    | nil => intro _ st h; simpa using h
    | cons x xs ih =>
      intro hp st hst
      rw [List.foldl_cons]
      apply ih (fun y hy => hp y (List.mem_cons_of_mem _ hy))
      rcases bidirStep_fst st x with ⟨hfst, ks, hsnd⟩ | ⟨ty, hty, hntrio, hnseen, hstep⟩
      · rcases hst with ⟨ap, hap, hnd, hsub, hnot⟩
        exact ⟨ap, by rw [hfst, hap], hnd,
          fun k hk => by rw [hsnd]; exact List.mem_append_left _ (hsub k hk), hnot⟩
      · rcases hst with ⟨ap, hap, hnd, hsub, hnot⟩
        have hxl : x ∈ l := hp x (List.mem_cons_self _ _)
        have hnewnot : ((x.target, x.source, ty) : RKey) ∉ l.map relKey := by
          rcases bidirectionalMap_cases hty hntrio with ⟨hres, hty'⟩ | ⟨hwork, hty'⟩
          · subst hty'
            intro hcon
            rcases relKey_type hcon with ⟨r', hr', hr't, _, _⟩
            exact h3 r' hr' hr't
          · subst hty'
            have := h2 x hxl hwork
            rw [hwork] at this
            exact this
        refine ⟨ap ++ [mkReverseRel x ty], ?_, ?_, ?_, ?_⟩
        · rw [hstep]; dsimp only; rw [hap, List.append_assoc]
        · rw [List.map_append]
          refine List.Nodup.append hnd (List.nodup_singleton _) ?_
          intro k hk hk2
          have hkk : k = ((x.target, x.source, ty) : RKey) := by
            simpa [mkReverseRel, relKey] using hk2
          subst hkk
          exact hnseen (hsub _ hk)
        · intro k hk
          rw [hstep]
          dsimp only
          rw [List.map_append] at hk
          rcases List.mem_append.1 hk with hk1 | hk1
          · exact List.mem_append_left _ (hsub k hk1)
          · have hkk : k = ((x.target, x.source, ty) : RKey) := by
              simpa [mkReverseRel, relKey] using hk1
            subst hkk
            exact List.mem_append_right _ (List.mem_singleton_self _)
        · intro k hk
          rw [List.map_append] at hk
          rcases List.mem_append.1 hk with hk1 | hk1
          · exact hnot k hk1
          · have hkk : k = ((x.target, x.source, ty) : RKey) := by
              simpa [mkReverseRel, relKey] using hk1
            subst hkk
            exact hnewnot
  rcases main l (fun x hx => hx) (l, ([] : List RKey))
      ⟨[], by simp, by simp, by simp, by simp⟩ with ⟨ap, hap, hnd, _, hnot⟩
  show ((l.foldl bidirStep (l, ([] : List RKey))).1.map relKey).Nodup
  rw [hap, List.map_append]
  exact List.Nodup.append h1 hnd (fun k hk hk2 => hnot k hk2 hk)

theorem except_ok_inj {β : Type} {a b : β} (h : (Except.ok a : Except String β) = .ok b) :
    a = b := by
  cases h; rfl

theorem except_pure_inj {β : Type} {a b : β} (h : (pure a : Except String β) = .ok b) :
    a = b :=
  except_ok_inj h

/-- Everything method 1 appends is a RESIDENCE relation. -/
theorem method1Person_types (text : Chars) (variants : List (Chars × Mention))
    (acc : List Relation) (person : Mention)
    (hacc : ∀ r ∈ acc, r.type = "RESIDENCE") :
    ∀ r ∈ method1Person text variants acc person, r.type = "RESIDENCE" := by
  unfold method1Person
  refine foldl_inv _ (fun (l : List Relation) => ∀ r ∈ l, r.type = "RESIDENCE") RESIDENCE_KEYWORDS acc
    ?_ hacc
  intro acc2 kw _ hacc2 r hr
  dsimp only at hr
  split at hr
  · exact hacc2 r hr
  · split at hr
    · exact hacc2 r hr
    · rcases List.mem_append.1 hr with h | h
      · exact hacc2 r h
      · have heq := List.mem_singleton.1 h
        subst heq
        rfl

/-- Everything method 2 appends is a RESIDENCE relation. -/
theorem method2Person_types (text : Chars) (locations : List Mention)
    (acc : List Relation) (person : Mention) (out : List Relation)
    (h : method2Person text locations acc person = .ok out)
    (hacc : ∀ r ∈ acc, r.type = "RESIDENCE") :
    ∀ r ∈ out, r.type = "RESIDENCE" := by
  unfold method2Person at h
  cases hft : firstTokenOr person.normalized with
  | error e => rw [hft, except_error_bind] at h; cases h
  | ok pfn =>
    simp only [hft, except_ok_bind] at h
    by_cases hp : pfn = []
    · rw [if_pos hp] at h
      cases except_pure_inj h
      exact hacc
    · rw [if_neg hp] at h
      cases except_pure_inj h
      refine foldl_inv _ (fun (l : List Relation) => ∀ r ∈ l, r.type = "RESIDENCE") locations acc ?_ hacc
      intro acc2 loc _ hacc2
      refine foldl_inv _ (fun (l : List Relation) => ∀ r ∈ l, r.type = "RESIDENCE") _ acc2 ?_ hacc2
      intro acc3 pPos _ hacc3 r hr
      split at hr
      · exact hacc3 r hr
      · rcases List.mem_append.1 hr with h | h
        · exact hacc3 r h
        · have heq := List.mem_singleton.1 h
          subst heq
          rfl

/-- Strategy A only emits RESIDENCE relations, with unique keys. -/
theorem extract_A_spec (text : Chars) (entities : Entities) (out : List Relation)
    (h : extract_person_location_relations text entities = .ok out) :
    ((out.map relKey).Nodup) ∧ (∀ r ∈ out, r.type = "RESIDENCE") := by
  unfold extract_person_location_relations at h
  by_cases hempty : entities.PERSON = [] ∨ entities.LOC = []
  · rw [if_pos hempty] at h
    cases except_ok_inj h
    exact ⟨by simp, by simp⟩
  · rw [if_neg hempty] at h
    cases hpv : personVariantsPass entities.PERSON with
    | error e => rw [hpv, except_error_bind] at h; cases h
    | ok u =>
      rw [hpv, except_ok_bind] at h
      cases hm2 : List.foldlM
          (fun acc person => method2Person text entities.LOC acc person)
          (entities.PERSON.foldl
            (fun acc person =>
              method1Person text (locTextVariants entities.LOC) acc person) [])
          entities.PERSON with
      | error e =>
        rw [hm2, except_error_bind] at h; cases h
      | ok rels2 =>
        rw [hm2, except_ok_bind] at h
        cases except_ok_inj h
        have hrels1 : ∀ r ∈ entities.PERSON.foldl
            (fun (acc : List Relation) person =>
              method1Person text (locTextVariants entities.LOC) acc person)
            ([] : List Relation),
            r.type = "RESIDENCE" := by
          refine foldl_inv _ (fun (l : List Relation) => ∀ r ∈ l, r.type = "RESIDENCE") _ [] ?_ (by simp)
          intro acc p _ hacc
          exact method1Person_types text _ acc p hacc
        have hrels2 : ∀ r ∈ rels2, r.type = "RESIDENCE" := by
          refine foldlM_except_inv _ (fun (l : List Relation) => ∀ r ∈ l, r.type = "RESIDENCE")
            entities.PERSON _ rels2 hm2 ?_ hrels1
          intro acc p b _ hb hacc
          exact method2Person_types text _ acc p b hb hacc
        exact ⟨dedupByKey_nodup rels2,
          fun r hr => hrels2 r (dedupByKey_subset rels2 r hr)⟩

theorem firstTokenOr_ok {s : Chars} (h : s = [] ∨ pySplit s ≠ []) :
    ∃ t, firstTokenOr s = .ok t := by
  unfold firstTokenOr
  by_cases hs : s = []
  · rw [if_pos hs]; exact ⟨[], rfl⟩
  · rw [if_neg hs]
    rcases h with h | h
    · exact absurd h hs
    · cases hsp : pySplit s with
      | nil => exact absurd hsp h
      | cons t ts => exact ⟨t, rfl⟩

/-- A successful person-2 search returns a person distinct from person 1. -/
theorem findPerson2_ne (text : Chars) (person1 : Mention) (swLower : Chars) (p1Pos : Nat) :
    ∀ (ps : List Mention) (res : Chars),
      findPerson2 text person1 swLower p1Pos ps = .ok (some res) →
      res ≠ person1.normalized := by
  intro ps
  induction ps with
  | nil => intro res h; cases h
  | cons p2 rest ih =>
    intro res h
    unfold findPerson2 at h
    by_cases heq : person1.normalized = p2.normalized
    · rw [if_pos heq] at h
      exact ih res h
    · rw [if_neg heq] at h
      cases hft : firstTokenOr p2.normalized with
      | error e => rw [hft, except_error_bind] at h; cases h
      | ok p2First =>
        simp only [hft, except_ok_bind] at h
        by_cases hp : p2First = []
        · rw [if_pos hp] at h
          exact ih res h
        · rw [if_neg hp, if_pos hp] at h
          split at h
          · split at h
            · have hpr : p2.normalized = res := by
                have hinj := except_ok_inj h
                injection hinj
              rw [← hpr]
              exact fun hcon => heq hcon.symm
            · exact ih res h
          · exact ih res h

/-- Under the whitespace-name proviso, the person-2 search never raises. -/
theorem findPerson2_ok (text : Chars) (person1 : Mention) (swLower : Chars) (p1Pos : Nat) :
    ∀ (ps : List Mention),
      (∀ p ∈ ps, p.normalized = [] ∨ pySplit p.normalized ≠ []) →
      ∃ res, findPerson2 text person1 swLower p1Pos ps = .ok res := by
  intro ps
  induction ps with
  | nil => intro _; exact ⟨none, rfl⟩
  | cons p2 rest ih =>
    intro hps
    have hrest := fun p hp => hps p (List.mem_cons_of_mem _ hp)
    unfold findPerson2
    by_cases heq : person1.normalized = p2.normalized
    · rw [if_pos heq]; exact ih hrest
    · rw [if_neg heq]
      rcases firstTokenOr_ok (hps p2 (List.mem_cons_self _ _)) with ⟨t, hft⟩
      simp only [hft, except_ok_bind]
      by_cases hp : t = []
      · rw [if_pos hp]; exact ih hrest
      · rw [if_neg hp, if_pos hp]
        split
        · split
          · exact ⟨some p2.normalized, rfl⟩
          · exact ih hrest
        · exact ih hrest

theorem relationTypesKeywords_snd {tk : List Chars × String}
    (h : tk ∈ relationTypesKeywords) :
    tk.2 = "FAMILY" ∨ tk.2 = "FRIENDSHIP" ∨ tk.2 = "WORK" ∨ tk.2 = "LOVE" := by
  unfold relationTypesKeywords at h
  rcases List.mem_cons.1 h with h | h
  · exact Or.inl (by rw [h])
  rcases List.mem_cons.1 h with h | h
  · exact Or.inr (Or.inl (by rw [h]))
  rcases List.mem_cons.1 h with h | h
  · exact Or.inr (Or.inr (Or.inl (by rw [h])))
  rcases List.mem_cons.1 h with h | h
  · exact Or.inr (Or.inr (Or.inr (by rw [h])))
  exact absurd h (List.not_mem_nil tk)

/-- Everything the Strategy B scan appends satisfies `BRel`. -/
theorem personPersonScan_inv (text : Chars) (persons : List Mention)
    (acc : List Relation) (person1 : Mention) (out : List Relation)
    (h : personPersonScan text persons acc person1 = .ok out)
    (hacc : ∀ r ∈ acc, BRel r) :
    ∀ r ∈ out, BRel r := by
  unfold personPersonScan at h
  cases hft : firstTokenOr person1.normalized with
  | error e => rw [hft, except_error_bind] at h; cases h
  | ok p1First =>
    simp only [hft, except_ok_bind] at h
    by_cases hp : p1First = []
    · rw [if_pos hp] at h
      cases except_pure_inj h
      exact hacc
    · rw [if_neg hp] at h
      refine foldlM_except_inv _ (fun (l : List Relation) => ∀ r ∈ l, BRel r)
        _ _ out h ?_ hacc
      intro acc2 p1Pos b _ hb hacc2
      refine foldlM_except_inv _ (fun (l : List Relation) => ∀ r ∈ l, BRel r)
        relationTypesKeywords _ b hb ?_ hacc2
      intro acc3 tk c htk hc hacc3
      refine foldlM_except_inv _ (fun (l : List Relation) => ∀ r ∈ l, BRel r)
        tk.1 _ c hc ?_ hacc3
      intro acc4 kw d _ hd hacc4
      split at hd
      · cases except_pure_inj hd
        exact hacc4
      · cases hfp : findPerson2 text person1 _ p1Pos persons with
        | error e => rw [hfp, except_error_bind] at hd; cases hd
        | ok res =>
          simp only [hfp, except_ok_bind] at hd
          cases res with
          | none =>
            cases except_pure_inj hd
            exact hacc4
          | some p2Name =>
            cases except_pure_inj hd
            intro r hr
            rcases List.mem_append.1 hr with hmem | hmem
            · exact hacc4 r hmem
            · have heqr := List.mem_singleton.1 hmem
              subst heqr
              exact ⟨relationTypesKeywords_snd htk,
                fun hcon => findPerson2_ne text person1 _ p1Pos persons p2Name hfp hcon.symm⟩

/-- Under the whitespace-name proviso, the Strategy B scan never raises. -/
theorem personPersonScan_ok (text : Chars) (persons : List Mention)
    (acc : List Relation) (person1 : Mention)
    (hpersons : ∀ p ∈ persons, p.normalized = [] ∨ pySplit p.normalized ≠ [])
    (hp1 : person1.normalized = [] ∨ pySplit person1.normalized ≠ []) :
    ∃ out, personPersonScan text persons acc person1 = .ok out := by
  unfold personPersonScan
  rcases firstTokenOr_ok hp1 with ⟨t, hft⟩
  simp only [hft, except_ok_bind]
  by_cases hp : t = []
  · rw [if_pos hp]; exact ⟨acc, rfl⟩
  · rw [if_neg hp]
    refine foldlM_except_ok _ _ acc ?_
    intro acc2 p1Pos _
    refine foldlM_except_ok _ relationTypesKeywords acc2 ?_
    intro acc3 tk _
    refine foldlM_except_ok _ tk.1 acc3 ?_
    intro acc4 kw _
    split
    · exact ⟨acc4, rfl⟩
    · refine except_bind_ok_exists
        (findPerson2_ok text person1 _ p1Pos persons hpersons) _ ?_
      intro b
      cases b with
      | none => exact ⟨acc4, rfl⟩
      | some p2Name => exact ⟨_, rfl⟩

/-- Strategy B emits unique keys, only the four person–person types with
distinct endpoints, and never both directions of one pair and type. -/
theorem extract_B_spec (text : Chars) (entities : Entities) (out : List Relation)
    (h : extract_person_person_relations text entities = .ok out) :
    ((out.map relKey).Nodup) ∧ (∀ r ∈ out, BRel r)
    ∧ (∀ r ∈ out, revKey r ∉ out.map relKey) := by
  unfold extract_person_person_relations at h
  by_cases hlen : entities.PERSON.length < 2
  · rw [if_pos hlen] at h
    cases except_ok_inj h
    exact ⟨by simp, by simp, by simp⟩
  · rw [if_neg hlen] at h
    cases hf : List.foldlM
        (fun acc person1 => personPersonScan text entities.PERSON acc person1)
        ([] : List Relation) entities.PERSON with
    | error e => rw [hf, except_error_bind] at h; cases h
    | ok rels =>
      rw [hf, except_ok_bind] at h
      cases except_pure_inj h
      have hpre : ∀ r ∈ rels, BRel r := by
        refine foldlM_except_inv _ (fun (l : List Relation) => ∀ r ∈ l, BRel r)
          entities.PERSON _ rels hf ?_ (by simp)
        intro acc p1 b _ hb hacc
        exact personPersonScan_inv text entities.PERSON acc p1 b hb hacc
      have hst : ∀ r ∈ rels, r.source ≠ r.target := fun r hr => (hpre r hr).2
      rcases dedupRev_fold_spec rels hst rels (fun r hr => hr) ([], [])
        rfl (by simp) (by simp) (by simp) with ⟨hkeys, hnd, hsub, hrev⟩
      refine ⟨hnd, fun r hr => hpre r (hsub r hr), ?_⟩
      intro r hr
      have hr2 := hrev r hr
      rw [hkeys] at hr2
      exact hr2

theorem extract_simple_types (text : Chars) (entities : Entities) :
    ∀ r ∈ extract_simple_relations text entities, r.type = "RELATED" := by
  intro r hr
  have hsub := dedupByKey_subset _ r hr
  rcases List.mem_map.1 hsub with ⟨pq, _, heq⟩
  rw [← heq]

/-- Claim C3: any two distinct relations in the final list returned by
`extract_relations` differ in source, target or type — no (source, target,
type) triple occurs twice after synthesis. -/
theorem triple_uniqueness (text : Chars) (entities : Entities) (out : List Relation)
    (h : extract_relations text entities = .ok out) :
    (out.map relKey).Nodup := by
  unfold extract_relations at h
  cases hA : extract_person_location_relations text entities with
  | error e => rw [hA, except_error_bind] at h; cases h
  | ok aout =>
    simp only [hA, except_ok_bind] at h
    cases hB : extract_person_person_relations text entities with
    | error e => rw [hB, except_error_bind] at h; cases h
    | ok bout =>
      simp only [hB, except_ok_bind] at h
      cases except_pure_inj h
      rcases extract_A_spec text entities aout hA with ⟨hAnd, hAty⟩
      rcases extract_B_spec text entities bout hB with ⟨hBnd, hBty, hBrev⟩
      by_cases hcond : (aout ++ bout).length = 0 ∧ 2 ≤ entities.PERSON.length
      · rw [if_pos hcond]
        have hnil : aout ++ bout = [] := List.length_eq_zero.1 hcond.1
        rw [hnil, List.nil_append]
        apply create_bidir_nodup
        · exact dedupByKey_nodup _
        · intro r hr hty
          have hrel := extract_simple_types text entities r hr
          exact absurd (hrel.symm.trans hty) (by decide)
        · intro r hr
          rw [extract_simple_types text entities r hr]
          decide
      · rw [if_neg hcond]
        apply create_bidir_nodup
        · rw [List.map_append]
          refine List.Nodup.append hAnd hBnd ?_
          intro k hka hkb
          rcases relKey_type hka with ⟨ra, hra, hrat, _, _⟩
          rcases relKey_type hkb with ⟨rb, hrb, hrbt, _, _⟩
          have hres : ra.type = "RESIDENCE" := hAty ra hra
          have h4 := (hBty rb hrb).1
          rw [hrat] at hres
          rw [hrbt] at h4
          rw [hres] at h4
          rcases h4 with h4 | h4 | h4 | h4 <;> exact absurd h4 (by decide)
        · intro r hr hty
          rcases List.mem_append.1 hr with hra | hrb
          · exact absurd ((hAty r hra).symm.trans hty) (by decide)
          · intro hcon
            rw [List.map_append] at hcon
            rcases List.mem_append.1 hcon with hca | hcb
            · rcases relKey_type hca with ⟨r', hr', hr't, _, _⟩
              have : r'.type = "RESIDENCE" := hAty r' hr'
              rw [hr't] at this
              dsimp only at this
              exact absurd (this.symm.trans hty) (by decide)
            · exact hBrev r hrb hcb
        · intro r hr
          rcases List.mem_append.1 hr with hra | hrb
          · rw [hAty r hra]; decide
          · rcases (hBty r hrb).1 with h4 | h4 | h4 | h4 <;> rw [h4] <;> decide

theorem personVariantsPass_ok (persons : List Mention)
    (hP : ∀ p ∈ persons, p.normalized = [] ∨ pySplit p.normalized ≠ []) :
    ∃ u, personVariantsPass persons = .ok u := by
  unfold personVariantsPass
  refine foldlM_except_ok _ persons () ?_
  intro acc p hp
  rcases firstTokenOr_ok (hP p hp) with ⟨t, hft⟩
  exact ⟨(), by rw [hft, except_ok_bind]; rfl⟩

theorem method2Person_ok (text : Chars) (locations : List Mention)
    (acc : List Relation) (person : Mention)
    (hp : person.normalized = [] ∨ pySplit person.normalized ≠ []) :
    ∃ out, method2Person text locations acc person = .ok out := by
  unfold method2Person
  rcases firstTokenOr_ok hp with ⟨t, hft⟩
  simp only [hft, except_ok_bind]
  by_cases h0 : t = []
  · rw [if_pos h0]; exact ⟨acc, rfl⟩
  · rw [if_neg h0]; exact ⟨_, rfl⟩

theorem extract_A_ok (text : Chars) (entities : Entities)
    (hP : ∀ p ∈ entities.PERSON, p.normalized = [] ∨ pySplit p.normalized ≠ []) :
    ∃ out, extract_person_location_relations text entities = .ok out := by
  unfold extract_person_location_relations
  by_cases hempty : entities.PERSON = [] ∨ entities.LOC = []
  · rw [if_pos hempty]; exact ⟨[], rfl⟩
  · rw [if_neg hempty]
    refine except_bind_ok_exists (personVariantsPass_ok entities.PERSON hP) _ ?_
    intro u
    refine except_bind_ok_exists ?_ _ ?_
    · exact foldlM_except_ok _ entities.PERSON _
        (fun acc p hp => method2Person_ok text entities.LOC acc p (hP p hp))
    · intro rels
      exact ⟨_, rfl⟩

theorem extract_B_ok (text : Chars) (entities : Entities)
    (hP : ∀ p ∈ entities.PERSON, p.normalized = [] ∨ pySplit p.normalized ≠ []) :
    ∃ out, extract_person_person_relations text entities = .ok out := by
  unfold extract_person_person_relations
  by_cases hlen : entities.PERSON.length < 2
  · rw [if_pos hlen]; exact ⟨[], rfl⟩
  · rw [if_neg hlen]
    refine except_bind_ok_exists ?_ _ ?_
    · exact foldlM_except_ok _ entities.PERSON _
        (fun acc p1 hp => personPersonScan_ok text entities.PERSON acc p1 hP (hP p1 hp))
    · intro rels
      exact ⟨_, rfl⟩

/-- Claim C2 (amended): provided no PERSON entity has a nonempty all-whitespace
normalized name, `extract_relations` returns without raising for every text
and entity mapping; when strategies A and B both return zero relations and at
least two PERSON entities exist, the result is exactly the synthesis of the
(spec-modelled) fallback Strategy C, whose output duplicates no
(source, target, type) key. -/
theorem extractor_total_and_fallback (text : Chars) (entities : Entities)
    (hP : ∀ p ∈ entities.PERSON, p.normalized = [] ∨ pySplit p.normalized ≠ []) :
    (∃ out, extract_relations text entities = .ok out)
    ∧ (extract_person_location_relations text entities = .ok [] →
       extract_person_person_relations text entities = .ok [] →
       2 ≤ entities.PERSON.length →
       extract_relations text entities =
         .ok (create_bidirectional_relations (extract_simple_relations text entities)))
    ∧ ((extract_simple_relations text entities).map relKey).Nodup := by
  refine ⟨?_, ?_, dedupByKey_nodup _⟩
  · unfold extract_relations
    refine except_bind_ok_exists (extract_A_ok text entities hP) _ ?_
    intro aout
    refine except_bind_ok_exists (extract_B_ok text entities hP) _ ?_
    intro bout
    exact ⟨_, rfl⟩
  · intro hA hB hn
    unfold extract_relations
    simp only [hA, hB, except_ok_bind]
    rw [if_pos ⟨by simp, hn⟩]
    simp only [List.append_nil, List.nil_append]
    rfl

/-- Claim C2 (amended), applied: a concrete well-formed two-person input on
which the extractor succeeds. -/
theorem extractor_total_witness :
    ∃ out, extract_relations [] fbEnts = .ok out :=
  (extractor_total_and_fallback [] fbEnts (by decide)).1

/-- Claim C3, applied to Scenario 1: the two returned relations have distinct
keys. -/
theorem triple_uniqueness_witness :
    (([s1rel1, s1rel2]).map relKey).Nodup :=
  triple_uniqueness s1text s1ents [s1rel1, s1rel2] (by rfl)

theorem isKey_iff_mem (ont : List (String × EntityData)) (name : String) :
    isKey ont name = true ↔ name ∈ ont.map (fun p => p.1) := by
  unfold isKey
  rw [List.any_eq_true]
  constructor
  · rintro ⟨p, hp, hpe⟩
    exact List.mem_map.2 ⟨p, hp, by simpa using hpe⟩
  · intro h
    rcases List.mem_map.1 h with ⟨p, hp, he⟩
    exact ⟨p, hp, by simpa using he⟩

theorem lookupEnt_cons (p : String × EntityData) (ont : List (String × EntityData))
    (name : String) :
    lookupEnt (p :: ont) name = if p.1 = name then some p.2 else lookupEnt ont name := by
  by_cases hp : p.1 = name <;> simp [lookupEnt, List.find?_cons, hp]

theorem isKey_append (l₁ l₂ : List (String × EntityData)) (name : String) :
    isKey (l₁ ++ l₂) name = (isKey l₁ name || isKey l₂ name) := by
  simp [isKey, List.any_append]

theorem lookupEnt_isSome_of_isKey {ont : List (String × EntityData)} {name : String}
    (h : isKey ont name = true) : ∃ d, lookupEnt ont name = some d := by
  rcases List.any_eq_true.1 h with ⟨p, hp, hpe⟩
  unfold lookupEnt
  rcases hf : List.find? (fun q => q.1 = name) ont with _ | q
  · rw [List.find?_eq_none] at hf
    exact absurd hpe (hf p hp)
  · exact ⟨q.2, by rw [hf]; rfl⟩

theorem find?Ent_eq_none_of_not {ont : List (String × EntityData)} {name : String}
    (h : isKey ont name = false) :
    List.find? (fun q => q.1 = name) ont = none := by
  rw [List.find?_eq_none]
  intro x hx hpx
  have : isKey ont name = true := List.any_eq_true.2 ⟨x, hx, hpx⟩
  rw [this] at h
  cases h

theorem lookupEnt_append_left {l₁ : List (String × EntityData)}
    (l₂ : List (String × EntityData)) {name : String} (h : isKey l₁ name = true) :
    lookupEnt (l₁ ++ l₂) name = lookupEnt l₁ name := by
  rcases lookupEnt_isSome_of_isKey h with ⟨d, hd⟩
  unfold lookupEnt at hd ⊢
  rw [List.find?_append]
  rcases hf : List.find? (fun q => q.1 = name) l₁ with _ | q
  · rw [hf] at hd; cases hd
  · rw [hf]; rfl

theorem lookupEnt_append_right {l₁ : List (String × EntityData)}
    (l₂ : List (String × EntityData)) {name : String} (h : isKey l₁ name = false) :
    lookupEnt (l₁ ++ l₂) name = lookupEnt l₂ name := by
  unfold lookupEnt
  rw [List.find?_append, find?Ent_eq_none_of_not h]
  rfl

theorem bump_fst (ont : List (String × EntityData)) (name : String) :
    (bumpMentions ont name).map (fun p => p.1) = ont.map (fun p => p.1) := by
  unfold bumpMentions
  rw [List.map_map]
  apply List.map_congr_left
  intro p _
  by_cases hp : p.1 = name <;> simp [hp]

theorem lookupEnt_bump (ont : List (String × EntityData)) (n m : String) :
    lookupEnt (bumpMentions ont n) m =
      (lookupEnt ont m).map
        (fun d => if m = n then { d with mentions := d.mentions + 1 } else d) := by
  induction ont with
  | nil => rfl
  | cons p rest ih =>
    show lookupEnt ((if p.1 = n then (p.1, { p.2 with mentions := p.2.mentions + 1 }) else p)
        :: bumpMentions rest n) m = _
    by_cases hpm : p.1 = m
    · by_cases hpn : p.1 = n
      · rw [if_pos hpn, lookupEnt_cons]
        dsimp only
        rw [if_pos hpm, lookupEnt_cons, if_pos hpm]
        have hmn : m = n := hpm ▸ hpn
        simp [hmn]
      · rw [if_neg hpn, lookupEnt_cons, if_pos hpm, lookupEnt_cons, if_pos hpm]
        have hmn : ¬ m = n := fun hc => hpn (hpm.symm ▸ hc.symm ▸ rfl)
        simp [hmn]
    · by_cases hpn : p.1 = n
      · rw [if_pos hpn, lookupEnt_cons]
        dsimp only
        rw [if_neg hpm, lookupEnt_cons, if_neg hpm]
        exact ih
      · rw [if_neg hpn, lookupEnt_cons, if_neg hpm, lookupEnt_cons, if_neg hpm]
        exact ih

theorem enrich_fst (ont : List (String × EntityData)) (rels : List ORelation) :
    (enrichEntities ont rels).map (fun p => p.1) = ont.map (fun p => p.1) := by
  unfold enrichEntities
  rw [List.map_map]
  rfl

theorem lookupEnt_enrich (ont : List (String × EntityData)) (rels : List ORelation)
    (name : String) :
    lookupEnt (enrichEntities ont rels) name =
      (lookupEnt ont name).map
        (fun d => { d with total_relations := relationCount rels name,
                           relation_types := relTypesCount rels name }) := by
  induction ont with
  | nil => rfl
  | cons p rest ih =>
    show lookupEnt ((p.1, _) :: enrichEntities rest rels) name = _
    by_cases hpm : p.1 = name
    · rw [lookupEnt_cons, lookupEnt_cons]
      dsimp only
      rw [if_pos hpm, if_pos hpm, hpm]
      rfl
    · rw [lookupEnt_cons, lookupEnt_cons]
      dsimp only
      rw [if_neg hpm, if_neg hpm]
      exact ih

theorem isKey_eq_false_iff (ont : List (String × EntityData)) (name : String) :
    isKey ont name = false ↔ name ∉ ont.map (fun p => p.1) := by
  rw [← isKey_iff_mem]
  constructor
  · intro h hc; rw [h] at hc; cases hc
  · intro h; cases hk : isKey ont name
    · rfl
    · exact absurd hk h

theorem isKey_enrich (ont : List (String × EntityData)) (rels : List ORelation)
    (n : String) : isKey (enrichEntities ont rels) n = isKey ont n := by
  cases hk : isKey ont n
  · rw [isKey_eq_false_iff] at hk ⊢
    rwa [enrich_fst]
  · rw [isKey_iff_mem] at hk ⊢
    rwa [enrich_fst]

theorem isKey_singleton (k n : String) (d : EntityData) :
    isKey [(k, d)] n = decide (k = n) := by
  simp [isKey]

theorem ensure_isKey_mono {ont : List (String × EntityData)} {n : String}
    (m k : String) (h : isKey ont n = true) :
    isKey (ensureEntity ont m k) n = true := by
  unfold ensureEntity
  split
  · exact h
  · rw [isKey_append, h]; rfl

theorem ensure_isKey_self (ont : List (String × EntityData)) (m k : String) :
    isKey (ensureEntity ont m k) m = true := by
  unfold ensureEntity
  split
  · rename_i hc; exact hc
  · rw [isKey_append, isKey_singleton, decide_eq_true rfl]
    simp

theorem ensure_lookup_preserve {ont : List (String × EntityData)} {n : String}
    (m k : String) (h : isKey ont n = true) :
    lookupEnt (ensureEntity ont m k) n = lookupEnt ont n := by
  unfold ensureEntity
  split
  · rfl
  · exact lookupEnt_append_left _ h

theorem ensure_lookup_new {ont : List (String × EntityData)} {m : String}
    (k : String) (h : isKey ont m = false) :
    lookupEnt (ensureEntity ont m k) m = some { type := k, mentions := 0 } := by
  unfold ensureEntity
  rw [if_neg (by rw [h]; exact Bool.false_ne_true)]
  rw [lookupEnt_append_right _ h, lookupEnt_cons, if_pos rfl]

theorem ensure_isKey_other {ont : List (String × EntityData)} {n : String}
    {m : String} (k : String) (hne : m ≠ n) :
    isKey (ensureEntity ont m k) n = isKey ont n := by
  unfold ensureEntity
  split
  · rfl
  · rw [isKey_append, isKey_singleton, decide_eq_false hne]
    simp

/-- The relation copied into the ontology by one relation-pass iteration. -/
theorem addRel_rels (st : List (String × EntityData) × List ORelation × List String)
    (r : RelRecord) :
    (addRelationStep st r).2.1 =
      st.2.1 ++ [{ source := r.source, target := r.target, type := r.type,
                   confidence := r.confidence.getD 0.5,
                   context := r.context.getD "" }] := rfl

theorem addRel_isKey_mono (st : List (String × EntityData) × List ORelation × List String)
    (r : RelRecord) {n : String} (h : isKey st.1 n = true) :
    isKey (addRelationStep st r).1 n = true :=
  ensure_isKey_mono _ _ (ensure_isKey_mono _ _ h)

theorem addRel_endpoints (st : List (String × EntityData) × List ORelation × List String)
    (r : RelRecord) :
    isKey (addRelationStep st r).1 r.source = true
    ∧ isKey (addRelationStep st r).1 r.target = true :=
  ⟨ensure_isKey_mono _ _ (ensure_isKey_self _ _ _), ensure_isKey_self _ _ _⟩

theorem addRel_lookup_preserve
    (st : List (String × EntityData) × List ORelation × List String)
    (r : RelRecord) {n : String} (h : isKey st.1 n = true) :
    lookupEnt (addRelationStep st r).1 n = lookupEnt st.1 n := by
  show lookupEnt (ensureEntity (ensureEntity st.1 _ _) _ _) n = _
  rw [ensure_lookup_preserve _ _ (ensure_isKey_mono _ _ h),
    ensure_lookup_preserve _ _ h]

theorem addRel_new (st : List (String × EntityData) × List ORelation × List String)
    (r : RelRecord) {n : String} (h : isKey st.1 n = false) :
    (r.source = n →
      lookupEnt (addRelationStep st r).1 n =
        some { type := r.source_type.getD "UNKNOWN", mentions := 0 })
    ∧ (r.source ≠ n → r.target = n →
      lookupEnt (addRelationStep st r).1 n =
        some { type := r.target_type.getD "UNKNOWN", mentions := 0 })
    ∧ (r.source ≠ n → r.target ≠ n →
      isKey (addRelationStep st r).1 n = false) := by
  refine ⟨?_, ?_, ?_⟩
  · intro hsn
    subst hsn
    show lookupEnt (ensureEntity (ensureEntity st.1 _ _) _ _) r.source = _
    rw [ensure_lookup_preserve _ _ (ensure_isKey_self _ _ _)]
    exact ensure_lookup_new _ h
  · intro hsn htn
    subst htn
    show lookupEnt (ensureEntity (ensureEntity st.1 _ _) _ _) r.target = _
    have h1 : isKey (ensureEntity st.1 r.source (r.source_type.getD "UNKNOWN"))
        r.target = false := by
      rw [ensure_isKey_other _ hsn]
      exact h
    exact ensure_lookup_new _ h1
  · intro hsn htn
    show isKey (ensureEntity (ensureEntity st.1 _ _) _ _) n = false
    rw [ensure_isKey_other _ htn, ensure_isKey_other _ hsn]
    exact h

theorem addRel_fold_preserve (n : String) :
    ∀ (rels : List RelRecord)
      (st : List (String × EntityData) × List ORelation × List String),
      isKey st.1 n = true →
      lookupEnt ((rels.foldl addRelationStep st).1) n = lookupEnt st.1 n := by
  intro rels
  induction rels with
  | nil => intro st _; rfl
  | cons r rest ih =>
    intro st h
    rw [List.foldl_cons]
    rw [ih (addRelationStep st r) (addRel_isKey_mono st r h)]
    exact addRel_lookup_preserve st r h

theorem addRel_fold_lazy (n k : String) :
    ∀ (rels : List RelRecord)
      (st : List (String × EntityData) × List ORelation × List String),
      isKey st.1 n = false →
      firstRefKind n rels = some k →
      ∃ d, lookupEnt ((rels.foldl addRelationStep st).1) n = some d
        ∧ d.type = k ∧ d.mentions = 0 := by
  intro rels
  induction rels with
  | nil => intro st _ hf; cases hf
  | cons r rest ih =>
    intro st h hf
    unfold firstRefKind at hf
    rw [List.foldl_cons]
    by_cases hsn : r.source = n
    · rw [if_pos hsn] at hf
      have hk : r.source_type.getD "UNKNOWN" = k := by injection hf
      have hl := (addRel_new st r h).1 hsn
      have hkey : isKey (addRelationStep st r).1 n = true := by
        rw [← hsn]
        exact (addRel_endpoints st r).1
      rw [addRel_fold_preserve n rest _ hkey, hl]
      exact ⟨_, rfl, hk, rfl⟩
    · rw [if_neg hsn] at hf
      by_cases htn : r.target = n
      · rw [if_pos htn] at hf
        have hk : r.target_type.getD "UNKNOWN" = k := by injection hf
        have hl := (addRel_new st r h).2.1 hsn htn
        have hkey : isKey (addRelationStep st r).1 n = true := by
          rw [← htn]
          exact (addRel_endpoints st r).2
        rw [addRel_fold_preserve n rest _ hkey, hl]
        exact ⟨_, rfl, hk, rfl⟩
      · rw [if_neg htn] at hf
        exact ih (addRelationStep st r) ((addRel_new st r h).2.2 hsn htn) hf

/-- After the relation pass, every copied relation's endpoints are keys. -/
theorem addRelations_endpoints (ent : List (String × EntityData))
    (rels : List RelRecord) :
    ∀ r' ∈ (addRelations ent rels).2.1,
      isKey (addRelations ent rels).1 r'.source = true
      ∧ isKey (addRelations ent rels).1 r'.target = true := by
  unfold addRelations
  refine foldl_inv addRelationStep
    (fun st => ∀ r' ∈ st.2.1,
      isKey st.1 r'.source = true ∧ isKey st.1 r'.target = true)
    rels (ent, [], []) ?_ (by intro r' hr'; cases hr')
  intro st x _ hst r' hr'
  rw [addRel_rels] at hr'
  rcases List.mem_append.1 hr' with hold | hnew
  · exact ⟨addRel_isKey_mono st x (hst r' hold).1,
      addRel_isKey_mono st x (hst r' hold).2⟩
  · have heq := List.mem_singleton.1 hnew
    subst heq
    exact addRel_endpoints st x

/-- Claim C6: after `build_ontology`, every relation's source and target are
keys of the entity mapping; an endpoint absent from the input canonical
entities is created at its first referencing relation with that relation's
recorded kind (UNKNOWN when absent) and mention count 0. -/
theorem referential_completeness (es : List (String × List EntityRecord))
    (rels : List RelRecord) :
    (∀ r ∈ (build_ontology es rels).relations,
       isKey (build_ontology es rels).entities r.source = true
       ∧ isKey (build_ontology es rels).entities r.target = true)
    ∧ (∀ name k, isKey (addEntities es) name = false →
        firstRefKind name rels = some k →
        ∃ d, lookupEnt (build_ontology es rels).entities name = some d
          ∧ d.type = k ∧ d.mentions = 0) := by
  constructor
  · intro r hr
    have hr' : r ∈ (addRelations (addEntities es) rels).2.1 := hr
    rcases addRelations_endpoints (addEntities es) rels r hr' with ⟨h1, h2⟩
    unfold build_ontology
    dsimp only
    rw [isKey_enrich, isKey_enrich]
    exact ⟨h1, h2⟩
  · intro name k hkey hf
    rcases addRel_fold_lazy name k rels (addEntities es, [], []) hkey hf
      with ⟨d, hd, hty, hm⟩
    unfold build_ontology
    dsimp only
    rw [lookupEnt_enrich]
    unfold addRelations
    rw [hd]
    exact ⟨_, rfl, hty, hm⟩

/-- Claim C6 applied at a concrete input: the relation endpoint `Саратов`,
absent from the canonical entities, is created with kind LOC and zero
mentions. -/
theorem referential_completeness_witness :
    ∃ d, lookupEnt (build_ontology obEnts obRels).entities "Саратов" = some d
      ∧ d.type = "LOC" ∧ d.mentions = 0 :=
  (referential_completeness obEnts obRels).2 "Саратов" "LOC" (by decide) (by rfl)

/-- Full characterization of the entity pass as a grouping fold: keys are
unique, keys are exactly the normalized names seen, and each entity carries
the kind of the name's first occurrence and the total occurrence count. -/
theorem entityFold_spec (ps : List (String × EntityRecord)) :
    ((ps.foldl addEntityStep []).map (fun p => p.1)).Nodup
    ∧ (∀ x, x ∈ (ps.foldl addEntityStep []).map (fun p => p.1) ↔
        x ∈ ps.map (fun q => q.2.normalized))
    ∧ ∀ nm, nm ∈ ps.map (fun q => q.2.normalized) →
        ∃ d, lookupEnt (ps.foldl addEntityStep []) nm = some d
          ∧ some d.type = (ps.find? (fun q => q.2.normalized = nm)).map (fun q => q.1)
          ∧ d.mentions = (ps.map (fun q => q.2.normalized)).count nm := by
  induction ps using List.reverseRecOn with
  | nil => exact ⟨by simp, by simp, by simp⟩
  | append_singleton ps q ih =>
    rcases ih with ⟨hnd, hiff, hspec⟩
    have hfold : (ps ++ [q]).foldl addEntityStep [] =
        addEntityStep (ps.foldl addEntityStep []) q := by
      rw [List.foldl_append]
      rfl
    have hnames : (ps ++ [q]).map (fun p => p.2.normalized) =
        ps.map (fun p => p.2.normalized) ++ [q.2.normalized] := by
      simp
    by_cases hk : isKey (ps.foldl addEntityStep []) q.2.normalized = true
    · have hmem0 : q.2.normalized ∈ ps.map (fun p => p.2.normalized) :=
        (hiff _).1 ((isKey_iff_mem _ _).1 hk)
      have hstep : addEntityStep (ps.foldl addEntityStep []) q =
          bumpMentions (ps.foldl addEntityStep []) q.2.normalized := by
        unfold addEntityStep
        split
        · rfl
        · rename_i hcon; exact absurd hk hcon
      rw [hfold, hstep, hnames]
      refine ⟨by rw [bump_fst]; exact hnd, ?_, ?_⟩
      · intro x
        rw [bump_fst, List.mem_append, List.mem_singleton, hiff x]
        constructor
        · exact Or.inl
        · rintro (h | h)
          · exact h
          · exact h ▸ hmem0
      · intro nm hm
        rw [List.mem_append, List.mem_singleton] at hm
        have hmold : nm ∈ ps.map (fun p => p.2.normalized) := by
          rcases hm with h | h
          · exact h
          · exact h ▸ hmem0
        rcases hspec nm hmold with ⟨d, hd, hty, hcnt⟩
        have hsome : (List.find? (fun p => p.2.normalized = nm) ps).isSome = true := by
          rcases List.mem_map.1 hmold with ⟨p0, hp0, hp0e⟩
          exact List.find?_isSome.2 ⟨p0, hp0, by simpa using hp0e⟩
        rcases hv : List.find? (fun p => p.2.normalized = nm) ps with _ | v
        · rw [hv] at hsome; cases hsome
        rw [hv] at hty
        have hfind : List.find? (fun p => p.2.normalized = nm) (ps ++ [q]) = some v := by
          rw [List.find?_append, hv]
          rfl
        rw [hfind, List.count_append]
        by_cases hnm : nm = q.2.normalized
        · subst hnm
          refine ⟨{ d with mentions := d.mentions + 1 }, ?_, ?_, ?_⟩
          · rw [lookupEnt_bump, hd]
            simp
          · exact hty
          · show d.mentions + 1 = _
            rw [← hcnt, List.count_singleton]
            simp
        · refine ⟨d, ?_, ?_, ?_⟩
          · rw [lookupEnt_bump, hd]
            simp [hnm]
          · exact hty
          · rw [← hcnt, List.count_singleton]
            have hbf : (q.2.normalized == nm) = false :=
              beq_eq_false_iff_ne.2 (Ne.symm hnm)
            rw [hbf]
            simp
    · have hkf : isKey (ps.foldl addEntityStep []) q.2.normalized = false := by
        cases hkk : isKey (ps.foldl addEntityStep []) q.2.normalized
        · rfl
        · exact absurd hkk hk
      have hnotmem : q.2.normalized ∉ ps.map (fun p => p.2.normalized) := by
        intro hc
        exact hk ((isKey_iff_mem _ _).2 ((hiff _).2 hc))
      have hstep : addEntityStep (ps.foldl addEntityStep []) q =
          ps.foldl addEntityStep [] ++
            [(q.2.normalized,
              { type := q.1, mentions := 1,
                first_mention := some (q.2.start.getD 0) })] := by
        unfold addEntityStep
        split
        · rename_i hcon; exact absurd hcon hk
        · rfl
      rw [hfold, hstep, hnames]
      refine ⟨?_, ?_, ?_⟩
      · rw [List.map_append]
        refine List.Nodup.append hnd (List.nodup_singleton _) ?_
        intro x hx hx2
        have hxe : x = q.2.normalized := by simpa using hx2
        subst hxe
        exact hnotmem ((hiff _).1 hx)
      · intro x
        rw [List.map_append, List.mem_append, List.mem_append, hiff x]
        simp
      · intro nm hm
        rw [List.mem_append, List.mem_singleton] at hm
        by_cases hnm : nm = q.2.normalized
        · subst hnm
          have hd0 : lookupEnt (ps.foldl addEntityStep [] ++
                [(q.2.normalized,
                  ({ type := q.1, mentions := 1, first_mention := some (q.2.start.getD 0) } :
                    EntityData))]) q.2.normalized =
              some { type := q.1, mentions := 1, first_mention := some (q.2.start.getD 0) } := by
            rw [lookupEnt_append_right _ hkf, lookupEnt_cons, if_pos rfl]
          refine ⟨_, hd0, ?_, ?_⟩
          · have hfps : List.find? (fun p => p.2.normalized = q.2.normalized) ps
                = none := by
              rw [List.find?_eq_none]
              intro x hx hpx
              exact hnotmem (List.mem_map.2 ⟨x, hx, by simpa using hpx⟩)
            rw [List.find?_append, hfps]
            show some q.1 =
              (List.find? (fun p => p.2.normalized = q.2.normalized) [q]).map _
            rw [List.find?_cons_of_pos _ (by simp)]
            rfl
          · show (1 : Nat) = _
            rw [List.count_append]
            have h0 : List.count q.2.normalized (ps.map (fun p => p.2.normalized))
                = 0 := List.count_eq_zero.2 hnotmem
            rw [h0, List.count_singleton]
            simp
        · have hmold : nm ∈ ps.map (fun p => p.2.normalized) := by
            rcases hm with h | h
            · exact h
            · exact absurd h hnm
          rcases hspec nm hmold with ⟨d, hd, hty, hcnt⟩
          have hknm : isKey (ps.foldl addEntityStep []) nm = true :=
            (isKey_iff_mem _ _).2 ((hiff _).2 hmold)
          refine ⟨d, ?_, ?_, ?_⟩
          · rw [lookupEnt_append_left _ hknm]
            exact hd
          · rcases hf : List.find? (fun p => p.2.normalized = nm) ps with _ | v
            · rw [hf] at hty
              cases hty
            · rw [List.find?_append, hf]
              rw [hf] at hty
              exact hty
          · rw [List.count_append, ← hcnt, List.count_singleton]
            have hbf : (q.2.normalized == nm) = false :=
              beq_eq_false_iff_ne.2 (Ne.symm hnm)
            rw [hbf]
            simp


theorem addEntities_eq_flat (es : List (String × List EntityRecord)) :
    addEntities es = (flatEntities es).foldl addEntityStep [] := by
  suffices h : ∀ init : List (String × EntityData),
      es.foldl (fun ont kl => kl.2.foldl (fun ont e => addEntityStep ont (kl.1, e)) ont) init
        = (flatEntities es).foldl addEntityStep init by
    exact h []
  induction es with
  | nil => intro init; rfl
  | cons kl rest ih =>
    intro init
    rw [List.foldl_cons]
    have hflat : flatEntities (kl :: rest) =
        kl.2.map (fun e => (kl.1, e)) ++ flatEntities rest := by
      unfold flatEntities
      rw [List.map_cons, List.flatten_cons]
    rw [hflat, List.foldl_append, List.foldl_map]
    exact ih _

theorem ensure_nodup {ont : List (String × EntityData)} (m k : String)
    (h : (ont.map (fun p => p.1)).Nodup) :
    ((ensureEntity ont m k).map (fun p => p.1)).Nodup := by
  unfold ensureEntity
  split
  · exact h
  · rename_i hc
    rw [List.map_append]
    refine List.Nodup.append h (List.nodup_singleton _) ?_
    intro x hx hx2
    have hxe : x = m := by simpa using hx2
    subst hxe
    exact hc ((isKey_iff_mem _ _).2 hx)

theorem addRel_fold_nodup :
    ∀ (rels : List RelRecord)
      (st : List (String × EntityData) × List ORelation × List String),
      ((st.1.map (fun p => p.1)).Nodup) →
      (((rels.foldl addRelationStep st).1.map (fun p => p.1)).Nodup) := by
  intro rels
  induction rels with
  | nil => intro st h; exact h
  | cons r rest ih =>
    intro st h
    rw [List.foldl_cons]
    exact ih _ (ensure_nodup _ _ (ensure_nodup _ _ h))

theorem foldl_count_shift (n : String) :
    ∀ (l : List ORelation) (a : Nat),
      l.foldl (fun acc r => acc + (if r.source = n then 1 else 0) +
        (if r.target = n then 1 else 0)) a
      = a + l.foldl (fun acc r => acc + (if r.source = n then 1 else 0) +
        (if r.target = n then 1 else 0)) 0 := by
  intro l
  induction l with
  | nil => intro a; simp
  | cons r rest ih =>
    intro a
    rw [List.foldl_cons, List.foldl_cons, ih, ih ((0 : Nat) +
      (if r.source = n then 1 else 0) + (if r.target = n then 1 else 0))]
    omega

theorem relationCount_cons (r : ORelation) (rest : List ORelation) (n : String) :
    relationCount (r :: rest) n =
      ((if r.source = n then 1 else 0) + (if r.target = n then 1 else 0))
        + relationCount rest n := by
  unfold relationCount
  rw [List.foldl_cons, foldl_count_shift]
  omega

theorem sum_map_add (l : List String) (f g : String → Nat) :
    (l.map (fun x => f x + g x)).sum = (l.map f).sum + (l.map g).sum := by
  induction l with
  | nil => rfl
  | cons x xs ih =>
    rw [List.map_cons, List.map_cons, List.map_cons, List.sum_cons, List.sum_cons,
      List.sum_cons, ih]
    omega

theorem sum_indicator_zero (x : String) :
    ∀ (names : List String), x ∉ names →
      (names.map (fun n => if x = n then (1 : Nat) else 0)).sum = 0 := by
  intro names
  induction names with
  | nil => intro _; rfl
  | cons m ms ih =>
    intro h
    rw [List.map_cons, List.sum_cons, ih (fun hc => h (List.mem_cons_of_mem _ hc)),
      if_neg (fun hc => h (by rw [hc]; exact List.mem_cons_self _ _))]

theorem sum_indicator_one (x : String) :
    ∀ (names : List String), names.Nodup → x ∈ names →
      (names.map (fun n => if x = n then (1 : Nat) else 0)).sum = 1 := by
  intro names
  induction names with
  | nil => intro _ h; cases h
  | cons m ms ih =>
    intro hnd hmem
    rw [List.map_cons, List.sum_cons]
    rcases List.mem_cons.1 hmem with he | hm
    · subst he
      rw [if_pos rfl, sum_indicator_zero x ms (List.nodup_cons.1 hnd).1]
    · have hxm : x ≠ m := by
        intro hc
        subst hc
        exact (List.nodup_cons.1 hnd).1 hm
      rw [if_neg hxm, ih (List.nodup_cons.1 hnd).2 hm]

/-- Each relation contributes exactly +1 to its source's counter and +1 to its
target's, so the counters over unique names covering all endpoints sum to
twice the relation count. -/
theorem sum_count (names : List String) (rels : List ORelation)
    (hnd : names.Nodup)
    (hmem : ∀ r ∈ rels, r.source ∈ names ∧ r.target ∈ names) :
    (names.map (fun n => relationCount rels n)).sum = 2 * rels.length := by
  induction rels with
  | nil =>
    have h0 : names.map (fun n => relationCount [] n) = names.map (fun _ => 0) := rfl
    rw [h0]
    simp
  | cons r rest ih =>
    have h1 := (hmem r (List.mem_cons_self _ _)).1
    have h2 := (hmem r (List.mem_cons_self _ _)).2
    have hmem2 : ∀ x ∈ rest, x.source ∈ names ∧ x.target ∈ names :=
      fun x hx => hmem x (List.mem_cons_of_mem _ hx)
    have hmapeq : names.map (fun n => relationCount (r :: rest) n)
        = names.map (fun n => ((if r.source = n then (1 : Nat) else 0)
            + (if r.target = n then 1 else 0)) + relationCount rest n) := by
      apply List.map_congr_left
      intro n _
      rw [relationCount_cons]
    rw [hmapeq, sum_map_add, sum_map_add, sum_indicator_one r.source names hnd h1,
      sum_indicator_one r.target names hnd h2, ih hmem2, List.length_cons]
    omega

/-- Claim C7: after `build_ontology`, the per-entity `total_relations` values
sum to exactly twice the number of relations in the ontology. -/
theorem statistics_consistency (es : List (String × List EntityRecord))
    (rels : List RelRecord) :
    ((build_ontology es rels).entities.map (fun p => p.2.total_relations)).sum
      = 2 * (build_ontology es rels).relations.length := by
  have hnd0 : ((addEntities es).map (fun p => p.1)).Nodup := by
    rw [addEntities_eq_flat]
    exact (entityFold_spec (flatEntities es)).1
  have hnd : (((addRelations (addEntities es) rels).1).map (fun p => p.1)).Nodup :=
    addRel_fold_nodup rels _ hnd0
  have hend := addRelations_endpoints (addEntities es) rels
  show ((enrichEntities (addRelations (addEntities es) rels).1
      (addRelations (addEntities es) rels).2.1).map (fun p => p.2.total_relations)).sum
    = 2 * (addRelations (addEntities es) rels).2.1.length
  have htot : (enrichEntities (addRelations (addEntities es) rels).1
        (addRelations (addEntities es) rels).2.1).map (fun p => p.2.total_relations)
      = ((addRelations (addEntities es) rels).1.map (fun p => p.1)).map
          (fun n => relationCount (addRelations (addEntities es) rels).2.1 n) := by
    unfold enrichEntities
    rw [List.map_map, List.map_map]
    rfl
  rw [htot]
  refine sum_count _ _ hnd ?_
  intro r hr
  rcases hend r hr with ⟨hs, ht⟩
  exact ⟨(isKey_iff_mem _ _).1 hs, (isKey_iff_mem _ _).1 ht⟩

/-- Claim C10: `build_ontology` keys entities by normalized name alone — a
name occurring under several kinds yields a single entity whose kind is fixed
by the first occurrence, with every occurrence (under any kind) counted in
its mentions. -/
theorem name_collapse (es : List (String × List EntityRecord))
    (rels : List RelRecord) :
    ((addEntities es).map (fun p => p.1)).Nodup
    ∧ (addEntities es).length
        = ((flatEntities es).map (fun q => q.2.normalized)).dedup.length
    ∧ ∀ name, name ∈ (flatEntities es).map (fun q => q.2.normalized) →
        ∃ d, lookupEnt (build_ontology es rels).entities name = some d
          ∧ some d.type =
              ((flatEntities es).find? (fun q => q.2.normalized = name)).map
                (fun q => q.1)
          ∧ d.mentions =
              ((flatEntities es).map (fun q => q.2.normalized)).count name := by
  rcases entityFold_spec (flatEntities es) with ⟨hnd, hiff, hspec⟩
  rw [← addEntities_eq_flat] at hnd hiff hspec
  refine ⟨hnd, ?_, ?_⟩
  · have hperm : List.Perm ((addEntities es).map (fun p => p.1))
        ((flatEntities es).map (fun q => q.2.normalized)).dedup := by
      rw [List.perm_ext_iff_of_nodup hnd (List.nodup_dedup _)]
      intro a
      rw [List.mem_dedup]
      exact hiff a
    have hlen := hperm.length_eq
    rwa [List.length_map] at hlen
  · intro name hmem
    rcases hspec name hmem with ⟨d, hd, hty, hcnt⟩
    have hkey : isKey (addEntities es) name = true := by
      rw [isKey_iff_mem]
      exact (hiff name).2 hmem
    have hl2 : lookupEnt (addRelations (addEntities es) rels).1 name = some d := by
      unfold addRelations
      rw [addRel_fold_preserve name rels _ hkey]
      exact hd
    show ∃ d2, lookupEnt (enrichEntities (addRelations (addEntities es) rels).1
        (addRelations (addEntities es) rels).2.1) name = some d2 ∧ _ ∧ _
    rw [lookupEnt_enrich, hl2]
    exact ⟨_, rfl, hty, hcnt⟩

/-- Claim C10 applied at a concrete input: the same name under PERSON and LOC
kinds yields a single entity of kind PERSON with two mentions. -/
theorem name_collapse_witness :
    ∃ d, lookupEnt (build_ontology obEnts2 []).entities "Пьер" = some d
      ∧ some d.type = some "PERSON" ∧ d.mentions = 2 := by
  rcases (name_collapse obEnts2 []).2.2 "Пьер" (by decide) with ⟨d, hd, hty, hm⟩
  refine ⟨d, hd, ?_, ?_⟩
  · rw [hty]; rfl
  · rw [hm]; rfl

/-! ## Second normalizer pass (claim C8): split/join/strip infrastructure -/

theorem rawSplit_cons_sep (sep : Char → Bool) (c : Char) (z : Chars) (h : sep c = true) :
    rawSplit sep (c :: z) = [] :: rawSplit sep z := by
  have h0 : rawSplit sep (c :: z)
      = if sep c then [] :: rawSplit sep z
        else match rawSplit sep z with
          | [] => [[c]]
          | t :: ts => (c :: t) :: ts := rfl
  rw [h0, if_pos h]

theorem rawSplit_cons_nonsep (sep : Char → Bool) (c : Char) (z : Chars) (h : sep c = false) :
    rawSplit sep (c :: z)
      = match rawSplit sep z with
        | [] => [[c]]
        | t :: ts => (c :: t) :: ts := by
  have h0 : rawSplit sep (c :: z)
      = if sep c then [] :: rawSplit sep z
        else match rawSplit sep z with
          | [] => [[c]]
          | t :: ts => (c :: t) :: ts := rfl
  rw [h0, if_neg (by simp [h])]

theorem rawSplit_token_append (sep : Char → Bool) :
    ∀ (t z : Chars), TokenOf sep t →
      rawSplit sep (t ++ z)
        = match rawSplit sep z with
          | [] => [t]
          | u :: us => (t ++ u) :: us := by
  intro t
  induction t with
  | nil => intro z h; exact absurd rfl h.1
  | cons a t' ih =>
    intro z h
    have ha : sep a = false := h.2 a (List.mem_cons_self _ _)
    rw [List.cons_append, rawSplit_cons_nonsep sep a (t' ++ z) ha]
    cases t' with
    | nil =>
      rw [List.nil_append]
      cases hz : rawSplit sep z with
      | nil => rfl
      | cons u us => rfl
    | cons b t'' =>
      have htok' : TokenOf sep (b :: t'') :=
        ⟨by simp, fun c hc => h.2 c (List.mem_cons_of_mem _ hc)⟩
      rw [ih z htok']
      cases hz : rawSplit sep z with
      | nil => rfl
      | cons u us => rfl

theorem splitDrop_token (sep : Char → Bool) (t : Chars) (h : TokenOf sep t) :
    splitDrop sep t = [t] := by
  have h2 : rawSplit sep t = [t] := by
    have h3 := rawSplit_token_append sep t [] h
    rw [List.append_nil] at h3
    exact h3
  unfold splitDrop
  rw [h2]
  simp [h.1]

theorem splitDrop_token_cons (sep : Char → Bool) (t : Chars) (c : Char) (z : Chars)
    (h : TokenOf sep t) (hc : sep c = true) :
    splitDrop sep (t ++ c :: z) = t :: splitDrop sep z := by
  unfold splitDrop
  rw [rawSplit_token_append sep t (c :: z) h, rawSplit_cons_sep sep c z hc]
  show ((t ++ []) :: rawSplit sep z).filter (fun u => u ≠ []) = _
  rw [List.append_nil, List.filter_cons]
  simp [h.1]

theorem rawSplit_chars (sep : Char → Bool) :
    ∀ s : Chars, ∀ t ∈ rawSplit sep s, ∀ c ∈ t, sep c = false := by
  intro s
  induction s with
  | nil =>
    intro t ht
    rw [show rawSplit sep [] = [] from rfl] at ht
    cases ht
  | cons a s' ih =>
    intro t ht c hc
    by_cases ha : sep a = true
    · rw [rawSplit_cons_sep sep a s' ha] at ht
      rcases List.mem_cons.1 ht with he | hm
      · subst he; cases hc
      · exact ih t hm c hc
    · have ha' : sep a = false := by simpa using ha
      rw [rawSplit_cons_nonsep sep a s' ha'] at ht
      cases hz : rawSplit sep s' with
      | nil =>
        rw [hz] at ht
        have ht' : t ∈ [[a]] := ht
        have he : t = [a] := by simpa using ht'
        subst he
        have hca : c = a := by simpa using hc
        subst hca
        exact ha'
      | cons u us =>
        rw [hz] at ht
        have ht' : t ∈ (a :: u) :: us := ht
        rcases List.mem_cons.1 ht' with he | hm
        · subst he
          rcases List.mem_cons.1 hc with hca | hcu
          · subst hca; exact ha'
          · exact ih u (by rw [hz]; exact List.mem_cons_self _ _) c hcu
        · exact ih t (by rw [hz]; exact List.mem_cons_of_mem _ hm) c hc

theorem splitDrop_tokens (sep : Char → Bool) (s : Chars) :
    ∀ t ∈ splitDrop sep s, TokenOf sep t := by
  intro t ht
  unfold splitDrop at ht
  rcases List.mem_filter.1 ht with ⟨hraw, hne⟩
  exact ⟨by simpa using hne, rawSplit_chars sep s t hraw⟩

theorem foldl_joinStep_shift (c : Char) :
    ∀ (ts : List Chars) (a b : Chars),
      ts.foldl (fun acc u => acc ++ [c] ++ u) (a ++ b)
        = a ++ ts.foldl (fun acc u => acc ++ [c] ++ u) b := by
  intro ts
  induction ts with
  | nil => intro a b; rfl
  | cons v vs ih =>
    intro a b
    rw [List.foldl_cons, List.foldl_cons]
    have h1 : a ++ b ++ [c] ++ v = a ++ (b ++ [c] ++ v) := by
      simp [List.append_assoc]
    rw [h1, ih]

theorem joinSep_cons_cons (c : Char) (t u : Chars) (rest : List Chars) :
    joinSep c (t :: u :: rest) = t ++ c :: joinSep c (u :: rest) := by
  show (u :: rest).foldl (fun acc v => acc ++ [c] ++ v) t = t ++ c :: joinSep c (u :: rest)
  rw [List.foldl_cons]
  have h1 : t ++ [c] ++ u = t ++ ([c] ++ u) := by rw [List.append_assoc]
  rw [h1, foldl_joinStep_shift c rest t ([c] ++ u), foldl_joinStep_shift c rest [c] u]
  rfl

theorem joinSep_roundtrip (sep : Char → Bool) (c : Char) (hc : sep c = true) :
    ∀ ts : List Chars, (∀ t ∈ ts, TokenOf sep t) → splitDrop sep (joinSep c ts) = ts := by
  intro ts
  induction ts with
  | nil => intro _; rfl
  | cons t ts' ih =>
    intro h
    cases ts' with
    | nil =>
      show splitDrop sep t = [t]
      exact splitDrop_token sep t (h t (List.mem_cons_self _ _))
    | cons u rest =>
      rw [joinSep_cons_cons,
        splitDrop_token_cons sep t c _ (h t (List.mem_cons_self _ _)) hc,
        ih (fun t' ht' => h t' (List.mem_cons_of_mem _ ht'))]

theorem mem_joinSep (c : Char) :
    ∀ (ts : List Chars) (x : Char), x ∈ joinSep c ts → x = c ∨ ∃ t ∈ ts, x ∈ t := by
  intro ts
  induction ts with
  | nil =>
    intro x hx
    rw [show joinSep c [] = [] from rfl] at hx
    cases hx
  | cons t ts' ih =>
    cases ts' with
    | nil =>
      intro x hx
      have hx' : x ∈ t := hx
      exact Or.inr ⟨t, List.mem_cons_self _ _, hx'⟩
    | cons u rest =>
      intro x hx
      rw [joinSep_cons_cons] at hx
      rcases List.mem_append.1 hx with h1 | h2
      · exact Or.inr ⟨t, List.mem_cons_self _ _, h1⟩
      · rcases List.mem_cons.1 h2 with he | hm
        · exact Or.inl he
        · rcases ih x hm with he | ⟨t', ht', hxt⟩
          · exact Or.inl he
          · exact Or.inr ⟨t', List.mem_cons_of_mem _ ht', hxt⟩

theorem sep_mem_joinSep (c : Char) (t u : Chars) (rest : List Chars) :
    c ∈ joinSep c (t :: u :: rest) := by
  rw [joinSep_cons_cons]
  exact List.mem_append.2 (Or.inr (List.mem_cons_self _ _))

theorem joinSep_ne_nil (c : Char) (t : Chars) (ts : List Chars) (ht : t ≠ []) :
    joinSep c (t :: ts) ≠ [] := by
  cases ts with
  | nil => exact ht
  | cons u rest =>
    rw [joinSep_cons_cons]
    intro hcontra
    rcases List.append_eq_nil.1 hcontra with ⟨_, h2⟩
    cases h2

theorem getLast_joinSep (c : Char) :
    ∀ ts : List Chars, (∀ t ∈ ts, t ≠ []) →
      ∀ x, (joinSep c ts).getLast? = some x → ∃ t ∈ ts, x ∈ t := by
  intro ts
  induction ts with
  | nil =>
    intro _ x hx
    rw [show joinSep c [] = [] from rfl] at hx
    cases hx
  | cons t ts' ih =>
    cases ts' with
    | nil =>
      intro _ x hx
      exact ⟨t, List.mem_cons_self _ _,
        List.mem_of_mem_getLast? (Option.mem_def.2 hx)⟩
    | cons u rest =>
      intro h x hx
      rw [joinSep_cons_cons] at hx
      have hne : joinSep c (u :: rest) ≠ [] :=
        joinSep_ne_nil c u rest (h u (List.mem_cons_of_mem _ (List.mem_cons_self _ _)))
      rw [List.getLast?_append_of_ne_nil _ (List.cons_ne_nil _ _)] at hx
      have h2 : (c :: joinSep c (u :: rest)).getLast? = (joinSep c (u :: rest)).getLast? := by
        rw [show c :: joinSep c (u :: rest) = [c] ++ joinSep c (u :: rest) from rfl,
          List.getLast?_append_of_ne_nil _ hne]
      rw [h2] at hx
      rcases ih (fun t' ht' => h t' (List.mem_cons_of_mem _ ht')) x hx with ⟨t', ht', hxt⟩
      exact ⟨t', List.mem_cons_of_mem _ ht', hxt⟩

theorem pyStrip_eq_self (s : Chars)
    (h1 : ∀ c, s.head? = some c → pyIsSpace c = false)
    (h2 : ∀ c, s.getLast? = some c → pyIsSpace c = false) :
    pyStrip s = s := by
  cases s with
  | nil => rfl
  | cons a t =>
    have ha : pyIsSpace a = false := h1 a rfl
    unfold pyStrip
    rw [List.dropWhile_cons, if_neg (by simp [ha])]
    rcases List.eq_nil_or_concat (a :: t) with hnil | ⟨l', b, hconc⟩
    · cases hnil
    · rw [List.concat_eq_append] at hconc
      have hb : pyIsSpace b = false := h2 b (by rw [hconc]; exact List.getLast?_concat _)
      rw [hconc, List.reverse_concat, List.dropWhile_cons, if_neg (by simp [hb]),
        List.reverse_cons, List.reverse_reverse]

theorem wsOrHyphen_false_parts {c : Char} (h : wsOrHyphen c = false) :
    pyIsSpace c = false ∧ c ≠ '-' := by
  unfold wsOrHyphen at h
  simp only [decide_eq_false_iff_not, not_or] at h
  exact ⟨by simpa using h.1, h.2⟩

theorem personKeyFn_eq_nil (s : Chars) (h : pySplit s = []) : personKeyFn s = s := by
  unfold personKeyFn
  rw [h]

theorem personKeyFn_eq_one (s : Chars) (a : Chars) (h : pySplit s = [a]) :
    personKeyFn s = a := by
  unfold personKeyFn
  rw [h]

theorem personKeyFn_eq_two (s : Chars) (a b : Chars) (h : pySplit s = [a, b]) :
    personKeyFn s = a ++ [' '] ++ b := by
  unfold personKeyFn
  rw [h]
  rfl

theorem personKeyFn_eq_cons2 (s : Chars) (a b : Chars) (bs : List Chars)
    (h : pySplit s = a :: b :: bs) :
    personKeyFn s = a ++ [' '] ++ (b :: bs).getLast (by simp) := by
  unfold personKeyFn
  rw [h]

theorem personKeyFn_idem (x : Chars) : personKeyFn (personKeyFn x) = personKeyFn x := by
  cases hsp : pySplit x with
  | nil =>
    rw [personKeyFn_eq_nil x hsp]
    exact personKeyFn_eq_nil x hsp
  | cons t ts =>
    have htok : TokenOf pyIsSpace t :=
      splitDrop_tokens pyIsSpace x t (by rw [show splitDrop pyIsSpace x = pySplit x from rfl, hsp]; exact List.mem_cons_self _ _)
    cases ts with
    | nil =>
      rw [personKeyFn_eq_one x t hsp]
      exact personKeyFn_eq_one t t (splitDrop_token pyIsSpace t htok)
    | cons q rest =>
      have hlmem : (q :: rest).getLast (by simp) ∈ pySplit x := by
        rw [hsp]
        exact List.mem_cons_of_mem _ (List.getLast_mem _)
      have hltok : TokenOf pyIsSpace ((q :: rest).getLast (by simp)) :=
        splitDrop_tokens pyIsSpace x _ hlmem
      have hsplit2 : pySplit (t ++ [' '] ++ (q :: rest).getLast (by simp))
          = [t, (q :: rest).getLast (by simp)] := by
        rw [List.append_assoc]
        show splitDrop pyIsSpace (t ++ ' ' :: (q :: rest).getLast (by simp)) = _
        rw [splitDrop_token_cons pyIsSpace t ' ' _ htok (by decide),
          splitDrop_token pyIsSpace _ hltok]
      rw [personKeyFn_eq_cons2 x t q rest hsp]
      exact personKeyFn_eq_two _ t _ hsplit2

theorem baseForm_eq_join (nf : Chars → Chars) (x : Chars) (hx : pyStrip x ≠ []) :
    get_location_base_form nf x
      = joinSep (if (pyStrip x).contains '-' then '-' else ' ')
          ((splitDrop wsOrHyphen (pyStrip x)).map (normalizeLocWord nf)) := by
  simp only [get_location_base_form]
  rw [if_neg hx]
  by_cases hd : (pyStrip x).contains '-' = true
  · rw [if_pos hd, if_pos hd]
  · rw [if_neg hd, if_neg hd]

theorem baseForm_fix (nf : Chars → Chars) (sep1 : Char) (hsep1 : wsOrHyphen sep1 = true)
    (nws : List Chars) (htok : ∀ v ∈ nws, TokenOf wsOrHyphen v)
    (hid : ∀ v ∈ nws, normalizeLocWord nf v = v)
    (hsep2 : (if (joinSep sep1 nws).contains '-' then '-' else ' ') = sep1
      ∨ nws.length ≤ 1) :
    get_location_base_form nf (joinSep sep1 nws) = joinSep sep1 nws := by
  cases nws with
  | nil => rfl
  | cons v vs =>
    have hv := htok v (List.mem_cons_self _ _)
    have hchars : ∀ t ∈ v :: vs, ∀ c ∈ t, pyIsSpace c = false :=
      fun t ht c hc => (wsOrHyphen_false_parts ((htok t ht).2 c hc)).1
    cases vs with
    | nil =>
      show get_location_base_form nf v = joinSep sep1 [v]
      have hstrip : pyStrip v = v := by
        refine pyStrip_eq_self v ?_ ?_
        · intro c hc
          exact hchars v (List.mem_cons_self _ _) c
            (List.mem_of_mem_head? (Option.mem_def.2 hc))
        · intro c hc
          exact hchars v (List.mem_cons_self _ _) c
            (List.mem_of_mem_getLast? (Option.mem_def.2 hc))
      rw [baseForm_eq_join nf v (by rw [hstrip]; exact hv.1), hstrip,
        splitDrop_token wsOrHyphen v hv, List.map_cons, List.map_nil,
        hid v (List.mem_cons_self _ _)]
      rfl
    | cons u rest =>
      have hne : joinSep sep1 (v :: u :: rest) ≠ [] := joinSep_ne_nil sep1 v _ hv.1
      have hstrip : pyStrip (joinSep sep1 (v :: u :: rest)) = joinSep sep1 (v :: u :: rest) := by
        refine pyStrip_eq_self _ ?_ ?_
        · intro ch hch
          rw [joinSep_cons_cons] at hch
          cases hv0 : v with
          | nil => exact absurd hv0 hv.1
          | cons a v' =>
            rw [hv0, List.cons_append, List.head?_cons] at hch
            have hcha : ch = a := (Option.some.inj hch).symm
            subst hcha
            exact hchars v (List.mem_cons_self _ _) ch
              (by rw [hv0]; exact List.mem_cons_self _ _)
        · intro ch hch
          rcases getLast_joinSep sep1 (v :: u :: rest)
              (fun t ht => (htok t ht).1) ch hch with ⟨t, ht, hcht⟩
          exact hchars t ht ch hcht
      rcases hsep2 with hs2 | hlen
      · have hsd : splitDrop wsOrHyphen (joinSep sep1 (v :: u :: rest)) = v :: u :: rest :=
          joinSep_roundtrip wsOrHyphen sep1 hsep1 _ htok
        have hmap : (v :: u :: rest).map (normalizeLocWord nf) = v :: u :: rest := by
          have hpt : ∀ t ∈ v :: u :: rest, normalizeLocWord nf t = id t := fun t ht => hid t ht
          rw [List.map_congr_left hpt, List.map_id]
        rw [baseForm_eq_join nf _ (by rw [hstrip]; exact hne), hstrip, hsd, hmap, hs2]
      · simp at hlen

theorem baseForm_idem (nf : Chars → Chars)
    (hg : ∀ u : Chars, u ≠ [] →
      normalizeLocWord nf (normalizeLocWord nf u) = normalizeLocWord nf u
      ∧ normalizeLocWord nf u ≠ []
      ∧ ∀ c ∈ normalizeLocWord nf u, wsOrHyphen c = false) (x : Chars) :
    get_location_base_form nf (get_location_base_form nf x)
      = get_location_base_form nf x := by
  by_cases hn : pyStrip x = []
  · have h1 : get_location_base_form nf x = [] := by
      simp only [get_location_base_form]
      rw [hn, if_pos rfl]
    rw [h1]
    rfl
  · rw [baseForm_eq_join nf x hn]
    have htokw : ∀ u ∈ splitDrop wsOrHyphen (pyStrip x), TokenOf wsOrHyphen u :=
      splitDrop_tokens wsOrHyphen (pyStrip x)
    have htokn : ∀ v ∈ (splitDrop wsOrHyphen (pyStrip x)).map (normalizeLocWord nf),
        TokenOf wsOrHyphen v := by
      intro v hv
      rcases List.mem_map.1 hv with ⟨u, hu, rfl⟩
      exact ⟨(hg u (htokw u hu).1).2.1, (hg u (htokw u hu).1).2.2⟩
    have hidn : ∀ v ∈ (splitDrop wsOrHyphen (pyStrip x)).map (normalizeLocWord nf),
        normalizeLocWord nf v = v := by
      intro v hv
      rcases List.mem_map.1 hv with ⟨u, hu, rfl⟩
      exact (hg u (htokw u hu).1).1
    by_cases hd : (pyStrip x).contains '-' = true
    · rw [if_pos hd]
      refine baseForm_fix nf '-' (by decide) _ htokn hidn ?_
      cases hnws : (splitDrop wsOrHyphen (pyStrip x)).map (normalizeLocWord nf) with
      | nil => exact Or.inr (by simp)
      | cons v vs =>
        cases vs with
        | nil => exact Or.inr (by simp)
        | cons u rest =>
          refine Or.inl ?_
          have hm : '-' ∈ joinSep '-' (v :: u :: rest) := sep_mem_joinSep '-' v u rest
          rw [if_pos (by simpa using hm)]
    · rw [if_neg hd]
      refine baseForm_fix nf ' ' (by decide) _ htokn hidn ?_
      refine Or.inl ?_
      have hnotmem : '-' ∉ joinSep ' ' ((splitDrop wsOrHyphen (pyStrip x)).map (normalizeLocWord nf)) := by
        intro hm
        rcases mem_joinSep ' ' _ '-' hm with he | ⟨t, ht, hmt⟩
        · exact absurd he (by decide)
        · exact absurd ((htokn t ht).2 '-' hmt) (by decide)
      rw [if_neg (by simpa using hnotmem)]

theorem groupFold_append (keyOf : PMention → Chars) (ms : List PMention) (m : PMention) :
    groupFold keyOf (ms ++ [m]) =
      (if (groupFold keyOf ms).any (fun g => g.1 = lowerS (keyOf m)) then
        (groupFold keyOf ms).map
          (fun g => if g.1 = lowerS (keyOf m) then (g.1, (g.2.1, g.2.2 ++ [m])) else g)
      else groupFold keyOf ms ++ [(lowerS (keyOf m), (keyOf m, [m]))]) := by
  unfold groupFold
  rw [List.foldl_append, List.foldl_cons, List.foldl_nil]

theorem groupFold_inv (keyOf : PMention → Chars) (ms : List PMention) :
    ((groupFold keyOf ms).map (fun g => g.1)).Nodup
    ∧ ∀ g ∈ groupFold keyOf ms, ∃ m0 ∈ ms, g.2.1 = keyOf m0 ∧ g.1 = lowerS (keyOf m0)
        ∧ ∃ first rest, g.2.2 = first :: rest := by
  induction ms using List.reverseRecOn with
  | nil =>
    refine ⟨List.nodup_nil, ?_⟩
    intro g hg
    rw [show groupFold keyOf [] = [] from rfl] at hg
    cases hg
  | append_singleton ms m ih =>
    rcases ih with ⟨hnd, hinv⟩
    rw [groupFold_append]
    by_cases hc : (groupFold keyOf ms).any (fun g => g.1 = lowerS (keyOf m)) = true
    · rw [if_pos hc]
      constructor
      · have hfst : ((groupFold keyOf ms).map
            (fun g => if g.1 = lowerS (keyOf m) then (g.1, (g.2.1, g.2.2 ++ [m])) else g)).map
              (fun g => g.1)
            = (groupFold keyOf ms).map (fun g => g.1) := by
          rw [List.map_map]
          apply List.map_congr_left
          intro g _
          show ((if g.1 = lowerS (keyOf m) then (g.1, (g.2.1, g.2.2 ++ [m])) else g)).1 = g.1
          by_cases hgl : g.1 = lowerS (keyOf m)
          · rw [if_pos hgl]
          · rw [if_neg hgl]
        rw [hfst]
        exact hnd
      · intro g hg
        rcases List.mem_map.1 hg with ⟨g0, hg0, rfl⟩
        rcases hinv g0 hg0 with ⟨m0, hm0, hk, hl, first, rest, hb⟩
        by_cases hgl : g0.1 = lowerS (keyOf m)
        · rw [if_pos hgl]
          exact ⟨m0, List.mem_append_left _ hm0, hk, hl, first, rest ++ [m],
            by rw [hb]; rfl⟩
        · rw [if_neg hgl]
          exact ⟨m0, List.mem_append_left _ hm0, hk, hl, first, rest, hb⟩
    · rw [if_neg hc]
      have hnotin : lowerS (keyOf m) ∉ (groupFold keyOf ms).map (fun g => g.1) := by
        intro hmem
        rcases List.mem_map.1 hmem with ⟨g, hg, hfst⟩
        exact hc (List.any_eq_true.2 ⟨g, hg, by simpa using hfst⟩)
      constructor
      · rw [List.map_append]
        refine List.Nodup.append hnd (List.nodup_singleton _) ?_
        intro x hx hx2
        have hxe : x = lowerS (keyOf m) := by simpa using hx2
        subst hxe
        exact hnotin hx
      · intro g hg
        rcases List.mem_append.1 hg with h1 | h2
        · rcases hinv g h1 with ⟨m0, hm0, hrest⟩
          exact ⟨m0, List.mem_append_left _ hm0, hrest⟩
        · have hge : g = (lowerS (keyOf m), (keyOf m, [m])) := by simpa using h2
          subst hge
          exact ⟨m, List.mem_append_right _ (List.mem_cons_self _ _), rfl, rfl, m, [], rfl⟩

theorem groupFold_of_nodup (keyOf : PMention → Chars) :
    ∀ ms : List PMention, (ms.map (fun m => lowerS (keyOf m))).Nodup →
      groupFold keyOf ms = ms.map (fun m => (lowerS (keyOf m), (keyOf m, [m]))) := by
  intro ms
  induction ms using List.reverseRecOn with
  | nil => intro _; rfl
  | append_singleton ms m ih =>
    intro h
    rw [List.map_append] at h
    rcases List.nodup_append.1 h with ⟨h1, h2, hdisj⟩
    rw [groupFold_append, ih h1]
    have hcond : ((ms.map (fun m' => (lowerS (keyOf m'), (keyOf m', [m'])))).any
        (fun g => g.1 = lowerS (keyOf m))) = false := by
      rw [List.any_eq_false]
      intro g hg
      rcases List.mem_map.1 hg with ⟨m', hm', rfl⟩
      simp only [decide_eq_true_eq]
      intro heq
      exact hdisj (List.mem_map.2 ⟨m', hm', rfl⟩) (by simpa using heq)
    rw [if_neg (by simp [hcond]), List.map_append]
    rfl

theorem groupEntity_key (keyOf : PMention → Chars)
    (hstable : ∀ (m m0 : PMention) (cnt : Nat),
      keyOf { m with normalized := some (keyOf m0), mentions_count := cnt } = keyOf m0)
    (ms : List PMention) :
    ∀ g ∈ groupFold keyOf ms,
      (groupEntity g).normalized = some g.2.1 ∧ keyOf (groupEntity g) = g.2.1 := by
  intro g hg
  rcases (groupFold_inv keyOf ms).2 g hg with ⟨m0, _, hk, _, first, rest, hb⟩
  have hge : groupEntity g
      = { first with normalized := some g.2.1, mentions_count := (first :: rest).length } := by
    unfold groupEntity
    rw [hb]
  rw [hge]
  refine ⟨rfl, ?_⟩
  rw [hk]
  exact hstable first m0 _

theorem normalizeWith_second_pass (keyOf : PMention → Chars)
    (hstable : ∀ (m m0 : PMention) (cnt : Nat),
      keyOf { m with normalized := some (keyOf m0), mentions_count := cnt } = keyOf m0)
    (ms : List PMention) :
    (groupFold keyOf ((groupFold keyOf ms).map groupEntity)).map groupEntity
      = ((groupFold keyOf ms).map groupEntity).map resetCount := by
  have hA := groupEntity_key keyOf hstable ms
  have hinv := groupFold_inv keyOf ms
  have hmapkeys : ((groupFold keyOf ms).map groupEntity).map (fun e => lowerS (keyOf e))
      = (groupFold keyOf ms).map (fun g => g.1) := by
    rw [List.map_map]
    apply List.map_congr_left
    intro g hg
    show lowerS (keyOf (groupEntity g)) = g.1
    rw [(hA g hg).2]
    rcases hinv.2 g hg with ⟨m0, _, hk, hl, _⟩
    rw [hk]
    exact hl.symm
  have hnd2 : (((groupFold keyOf ms).map groupEntity).map (fun e => lowerS (keyOf e))).Nodup := by
    rw [hmapkeys]
    exact hinv.1
  rw [groupFold_of_nodup keyOf _ hnd2, List.map_map]
  apply List.map_congr_left
  intro e he
  rcases List.mem_map.1 he with ⟨g, hg, rfl⟩
  rcases hA g hg with ⟨hn, hkey⟩
  show { groupEntity g with normalized := some (keyOf (groupEntity g)), mentions_count := 1 }
      = resetCount (groupEntity g)
  rw [hkey, ← hn]
  rfl

theorem personKeyOf_stable (m m0 : PMention) (cnt : Nat) :
    personKeyOf { m with normalized := some (personKeyOf m0), mentions_count := cnt }
      = personKeyOf m0 :=
  personKeyFn_idem (m0.normalized.getD (pyStrip m0.text))

theorem locKeyOf_stable (nf : Chars → Chars)
    (hg : ∀ u : Chars, u ≠ [] →
      normalizeLocWord nf (normalizeLocWord nf u) = normalizeLocWord nf u
      ∧ normalizeLocWord nf u ≠ []
      ∧ ∀ c ∈ normalizeLocWord nf u, wsOrHyphen c = false)
    (m m0 : PMention) (cnt : Nat) :
    locKeyOf nf { m with normalized := some (locKeyOf nf m0), mentions_count := cnt }
      = locKeyOf nf m0 :=
  baseForm_idem nf hg (m0.normalized.getD (pyStrip m0.text))

/-- Claim C8 (amended): a second run of the person/location normalizers over
their own output changes nothing except the mention counters, which restart
at 1 — so normalization is not idempotent on the counters, but is idempotent
on names, keys, offsets and grouping.  For locations this holds whenever the
external pymorphy2 word normalizer is itself stable (idempotent per word, and
producing nonempty words free of whitespace and hyphens). -/
theorem normalizer_second_pass (persons locations : List PMention) (nf : Chars → Chars)
    (hg : ∀ u : Chars, u ≠ [] →
      normalizeLocWord nf (normalizeLocWord nf u) = normalizeLocWord nf u
      ∧ normalizeLocWord nf u ≠ []
      ∧ ∀ c ∈ normalizeLocWord nf u, wsOrHyphen c = false) :
    normalize_persons (normalize_persons persons) = (normalize_persons persons).map resetCount
    ∧ normalize_locations nf (normalize_locations nf locations)
        = (normalize_locations nf locations).map resetCount := by
  constructor
  · exact normalizeWith_second_pass personKeyOf
      (fun m m0 cnt => personKeyOf_stable m m0 cnt) persons
  · exact normalizeWith_second_pass (locKeyOf nf)
      (fun m m0 cnt => locKeyOf_stable nf hg m m0 cnt) locations

/-- Claim C8 (amended) applied at concrete inputs: a duplicated person mention
and a location list with both a repeat and a hyphenated name, under the
constant word normalizer `nf0`. -/
theorem normalizer_second_pass_witness :
    normalize_persons (normalize_persons [pm, pm]) = (normalize_persons [pm, pm]).map resetCount
    ∧ normalize_locations nf0 (normalize_locations nf0 [locA, locB, locA])
        = (normalize_locations nf0 [locA, locB, locA]).map resetCount := by
  refine normalizer_second_pass [pm, pm] [locA, locB, locA] nf0 ?_
  intro u hu
  cases u with
  | nil => exact absurd rfl hu
  | cons c rest =>
    have hred : normalizeLocWord nf0 (c :: rest)
        = if pyIsUpper c then
            (match nf0 (c :: rest) with
              | [] => []
              | n0 :: ntail => if ntail ≠ [] then pyUpperChar n0 :: ntail else [pyUpperChar n0])
          else nf0 (c :: rest) := rfl
    have hnf : nf0 (c :: rest) = w "x" := rfl
    have hw : normalizeLocWord nf0 (c :: rest) = if pyIsUpper c then w "X" else w "x" := by
      rw [hred, hnf]
      by_cases hc : pyIsUpper c = true
      · rw [if_pos hc, if_pos hc]
        rfl
      · rw [if_neg hc, if_neg hc]
    rw [hw]
    by_cases hc : pyIsUpper c = true
    · rw [if_pos hc]
      exact ⟨by decide, by decide, by decide⟩
    · rw [if_neg hc]
      exact ⟨by decide, by decide, by decide⟩

end BookConn
